import Mathlib

set_option autoImplicit false

/-
Shallow embedding of `pg/schema_compare.py` (aiven-tools): the snapshot
normalizer (`gather_data` and helpers), the recursive diff engine
(`compare_dicts`), the relation-level driver (`compare_schema`) and the
counting / exit-status logic of `compare` and `main`.

Python dicts are modelled as insertion-ordered association lists with unique
keys; scalar values are modelled by the string `str()` prints for them.
-/

/-- A Python value stored in a schema snapshot: either a scalar (modelled by
its textual `str()` rendering) or a dict (an insertion-ordered association
list). `schema_compare` only stores strings, numbers and booleans as scalars;
the model identifies a scalar with the text Python prints for it. -/
inductive Value where
  | scalar (s : String)
  | dict (entries : List (String × Value))

mutual

/-- Decidable equality of values (structural equality of the representation;
Python's `==` on the mappings they denote is `pyEq` below). -/
def Value.decEq : (v w : Value) → Decidable (v = w)
  | .scalar s, .scalar t =>
    match String.decEq s t with
    | isTrue h => isTrue (by rw [h])
    | isFalse h => isFalse (fun hh => by cases hh; exact h rfl)
  | .scalar _, .dict _ => isFalse (fun h => by cases h)
  | .dict _, .scalar _ => isFalse (fun h => by cases h)
  | .dict d, .dict e =>
    match Value.entriesDecEq d e with
    | isTrue h => isTrue (by rw [h])
    | isFalse h => isFalse (fun hh => by cases hh; exact h rfl)

/-- Decidable equality of dict entry lists. -/
def Value.entriesDecEq : (d e : List (String × Value)) → Decidable (d = e)
  | [], [] => isTrue rfl
  | [], _ :: _ => isFalse (fun h => by cases h)
  | _ :: _, [] => isFalse (fun h => by cases h)
  | (k, v) :: ds, (k2, v2) :: es =>
    match String.decEq k k2, Value.decEq v v2, Value.entriesDecEq ds es with
    | isTrue h1, isTrue h2, isTrue h3 => isTrue (by rw [h1, h2, h3])
    | isFalse h1, _, _ => isFalse (fun h => by cases h; exact h1 rfl)
    | _, isFalse h2, _ => isFalse (fun h => by cases h; exact h2 rfl)
    | _, _, isFalse h3 => isFalse (fun h => by cases h; exact h3 rfl)

end

instance : DecidableEq Value := Value.decEq

/-- `d.get(k)` on a Python dict modelled as an association list: the value
bound to the (unique) key `k`, if present. -/
def dictGet {α : Type} : List (String × α) → String → Option α
  | [], _ => none
  | (k, v) :: rest, key => if k = key then some v else dictGet rest key

/-- `d[k] = v` on a Python dict: replace the binding in place, or append a new
one at the end. -/
def dictSet {α : Type} (key : String) (v : α) : List (String × α) → List (String × α)
  | [] => [(key, v)]
  | (k, w) :: rest => if k = key then (k, v) :: rest else (k, w) :: dictSet key v rest

/-- The keys of a dict in insertion order (`list(d)`). -/
def keysOf {α : Type} (d : List (String × α)) : List String := d.map Prod.fst

/-- Python `sorted` on a list of strings (lexicographic by code point). -/
def pySorted (l : List String) : List String := l.insertionSort (· ≤ ·)

mutual

/-- Python `==` as `compare_dicts` evaluates it on snapshot values: scalars
compare as scalars, dicts compare as unordered key-value mappings
(equal sizes and, for every binding of the first, an equal binding in the
second), and a scalar never equals a dict. -/
def pyEq : Value → Value → Bool
  | .scalar s, .scalar t => s == t
  | .dict d, .dict e => d.length == e.length && pyEqEntries d e
  | _, _ => false

/-- Helper of `pyEq`: every binding of the first entry list has an
`pyEq`-equal binding in the second dict. -/
def pyEqEntries : List (String × Value) → List (String × Value) → Bool
  | [], _ => true
  | (k, v) :: rest, e =>
    (match dictGet e k with
     | some w => pyEq v w
     | none => false) && pyEqEntries rest e

end

/-- Python `a.get(item) == b.get(item)`: `None == None` holds, `None` never
equals a present value. -/
def pyEqOpt : Option Value → Option Value → Bool
  | none, none => true
  | some v, some w => pyEq v w
  | _, _ => false

/-- `repr()` of a Python string containing no quotes or escapes — the form
`"{!r}".format(name)` produces for ordinary SQL identifiers. -/
def pyRepr (s : String) : String := "\x27" ++ s ++ "\x27"

mutual

/-- `str()` of a value as `"{}".format(...)` renders it: a scalar prints as
itself, a dict prints as `{'k': v, ...}`. (For the parts of a dict Python
uses `repr`; the model reuses `pyRepr`/`pyStr`, which agrees on the
quote-free identifier strings of this domain.) -/
def pyStr : Value → String
  | .scalar s => s
  | .dict d => "\x7b" ++ pyStrEntries d ++ "\x7d"

/-- Helper of `pyStr`: comma-separated `'key': value` parts of a dict. -/
def pyStrEntries : List (String × Value) → String
  | [] => ""
  | [(k, v)] => pyRepr k ++ ": " ++ pyStr v
  | (k, v) :: rest => pyRepr k ++ ": " ++ pyStr v ++ ", " ++ pyStrEntries rest

end

/-- One pass of `compare_dicts`' `seen_items` loop: keep the first occurrence
of each element of the list that is not already in `seen`. -/
def dedupFirst (seen : List String) : List String → List String
  | [] => []
  | k :: ks => if k ∈ seen then dedupFirst seen ks else k :: dedupFirst (k :: seen) ks

/-- The sequence of items `compare_dicts` iterates over (line 97):
`sorted(a) + sorted(b)` with already-seen items skipped. -/
def cdItems (a b : List (String × Value)) : List String :=
  dedupFirst [] (pySorted (keysOf a) ++ pySorted (keysOf b))


/-- The one-sided record of lines 109-118: when the value present on only one
side is a dict with exactly one entry, `popitem()` formats that entry into
the record; otherwise the record is the bare signed key path. -/
def oneSidedLine (sign itemdesc : String) : Value → String
  | .dict [(k, v)] => sign ++ itemdesc ++ " " ++ k ++ " " ++ pyStr v
  | _ => sign ++ itemdesc

/-- The body of `compare_dicts` (lines 95-123): process the pending `items`
against dicts `a` and `b` and collect the yielded diff lines; `itemdesc` of
line 108 (`" ".join(path + [item])`) is written out at each use. The
nested-dict case re-enters on the sub-dicts with their own item sequence,
like `yield from compare_dicts(a_value, b_value, path=itempath)`.
The `popitem()` of single-entry dicts (lines 111 and 116) mutates values
under keys the generator never reads again, so the yielded lines are
computed here without threading that mutation; `cdGoMut` below models the
mutation itself. -/
def cdGo : List String → List (String × Value) → List (String × Value) → List String → List String
  | [], _, _, _ => []
  | item :: rest, a, b, path =>
    if pyEqOpt (dictGet a item) (dictGet b item) then
      cdGo rest a b path
    else
      match ha : dictGet a item, hb : dictGet b item with
      | some av, none =>
        oneSidedLine "-" (String.intercalate " " (path ++ [item])) av :: cdGo rest a b path
      | none, some bv =>
        oneSidedLine "+" (String.intercalate " " (path ++ [item])) bv :: cdGo rest a b path
      | some (.dict d1), some (.dict d2) =>
        cdGo (cdItems d1 d2) d1 d2 (path ++ [item]) ++ cdGo rest a b path
      | some av, some bv =>
        ("-" ++ String.intercalate " " (path ++ [item]) ++ " " ++ pyStr av) ::
          ("+" ++ String.intercalate " " (path ++ [item]) ++ " " ++ pyStr bv) ::
          cdGo rest a b path
      | none, none => cdGo rest a b path
termination_by items a b _ => (sizeOf a + sizeOf b, items.length)
decreasing_by
  all_goals simp_wf
  all_goals first
    | exact Prod.Lex.right _ (Nat.lt_succ_self _)
    | · have H : ∀ (d : List (String × Value)) (k : String) (v : Value),
          dictGet d k = some v → sizeOf v < sizeOf d := by
          intro d
          induction d with
          | nil => intro k v h; simp [dictGet] at h
          | cons kv rest ih =>
            intro k v h
            obtain ⟨k2, v2⟩ := kv
            by_cases hk : k2 = k
            · simp [dictGet, hk] at h
              subst h
              simp
              omega
            · simp [dictGet, hk] at h
              have := ih k v h
              simp
              omega
        have h1 := H _ _ _ ha
        have h2 := H _ _ _ hb
        exact Prod.Lex.left _ _ (by simp at h1 h2; omega)

/-- `compare_dicts(a, b, path)`: the full sequence of diff lines the generator
yields. -/
def compare_dicts (a b : List (String × Value)) (path : List String) : List String :=
  cdGo (cdItems a b) a b path

/-- State-faithful model of the `compare_dicts` loop: the same traversal as
`cdGo`, additionally threading the two dicts through the `popitem()`
mutations of lines 111 and 116 (a single-entry dict value is emptied in
place) and through the nested-dict recursion. `fuel` bounds the number of
loop iterations; `none` means the bound was hit, which never happens on the
finite values of this domain with enough fuel. Returns the yielded lines
with the final states of `a` and `b`. -/
def cdGoMut : Nat → List String → List (String × Value) → List (String × Value) → List String →
    Option (List String × List (String × Value) × List (String × Value))
  | _, [], a, b, _ => some ([], a, b)
  | 0, _ :: _, _, _, _ => none
  | fuel + 1, item :: rest, a, b, path =>
    if pyEqOpt (dictGet a item) (dictGet b item) then
      cdGoMut fuel rest a b path
    else
      let itemdesc := String.intercalate " " (path ++ [item])
      match dictGet a item, dictGet b item with
      | some av, none =>
        (match av with
         | .dict [(k, v)] =>
           (cdGoMut fuel rest (dictSet item (.dict []) a) b path).map
             (fun r => (("-" ++ itemdesc ++ " " ++ k ++ " " ++ pyStr v) :: r.1, r.2))
         | _ =>
           (cdGoMut fuel rest a b path).map
             (fun r => (("-" ++ itemdesc) :: r.1, r.2)))
      | none, some bv =>
        (match bv with
         | .dict [(k, v)] =>
           (cdGoMut fuel rest a (dictSet item (.dict []) b) path).map
             (fun r => (("+" ++ itemdesc ++ " " ++ k ++ " " ++ pyStr v) :: r.1, r.2))
         | _ =>
           (cdGoMut fuel rest a b path).map
             (fun r => (("+" ++ itemdesc) :: r.1, r.2)))
      | some (.dict d1), some (.dict d2) =>
        (match cdGoMut fuel (cdItems d1 d2) d1 d2 (path ++ [item]) with
         | some (sub, d1f, d2f) =>
           (cdGoMut fuel rest (dictSet item (.dict d1f) a) (dictSet item (.dict d2f) b) path).map
             (fun r => (sub ++ r.1, r.2))
         | none => none)
      | some av, some bv =>
        (cdGoMut fuel rest a b path).map
          (fun r => (("-" ++ itemdesc ++ " " ++ pyStr av) ::
            ("+" ++ itemdesc ++ " " ++ pyStr bv) :: r.1, r.2))
      | none, none => cdGoMut fuel rest a b path

/-- `compare_dicts(a, b, path)` with its mutation of the inputs made explicit:
the yielded lines and the final states of the two argument dicts. -/
def compare_dicts_mut (fuel : Nat) (a b : List (String × Value)) (path : List String) :
    Option (List String × List (String × Value) × List (String × Value)) :=
  cdGoMut fuel (cdItems a b) a b path

/-- The dict `gather_data` returns for one side (its `"rels"`, `"dsn"` and
`"partitions"` entries): the Snapshot of the spec plus the side's identity
and exclusion set. -/
structure Info where
  rels : List (String × List (String × Value))
  dsn : String
  partitions : List String
deriving DecidableEq

/-- `rels` as built by gathering: table name → key → property bag. -/
abbrev Rels := List (String × List (String × Value))

/-- Python `==` on two optional relation dicts, as in
`a_rels.get(rel) == b_rels.get(rel)` (line 145). -/
def pyEqOptDict (o1 o2 : Option (List (String × Value))) : Bool :=
  pyEqOpt (o1.map Value.dict) (o2.map Value.dict)

/-- Python `str.startswith`, modelled at the character level. -/
def pyStartswith (s pre : String) : Bool := pre.data.isPrefixOf s.data

/-- The block of lines `compare_schema` yields for one relation name
(lines 144-156): nothing when the two sides' values are `==`; otherwise the
`@@` marker followed by either the single relation-level record (the source
yields `"+Relation ..."` in both one-sided branches, lines 150 and 153) or
the recursive dict diff. -/
def relBlock (a_rels b_rels : Rels) (rel : String) : List String :=
  if pyEqOptDict (dictGet a_rels rel) (dictGet b_rels rel) then []
  else
    ("@@ Relation " ++ rel) ::
      match dictGet a_rels rel, dictGet b_rels rel with
      | none, _ => ["+Relation " ++ pyRepr rel]
      | some _, none => ["+Relation " ++ pyRepr rel]
      | some da, some db => compare_dicts da db []

/-- The relation names `compare_schema` iterates over (lines 132-144): the
union of both sides' keys, minus both partition lists when
`ignore_partitions`, restricted to the requested schemas when any were
given, in sorted order. -/
def consideredRels (a_info b_info : Info) (schemas : List String) (ignore_partitions : Bool) :
    List String :=
  let all0 := dedupFirst [] (keysOf a_info.rels ++ keysOf b_info.rels)
  let all1 :=
    if ignore_partitions then
      all0.filter (fun n => !(a_info.partitions.contains n) && !(b_info.partitions.contains n))
    else all0
  let all2 :=
    if schemas.isEmpty then all1
    else all1.filter (fun n => schemas.any (fun schema => pyStartswith n (schema ++ ".")))
  pySorted all2

/-- `compare_schema(a_info, b_info, schemas, ignore_partitions)`: the full
line sequence the generator yields (lines 126-156). -/
def compare_schema (a_info b_info : Info) (schemas : List String) (ignore_partitions : Bool) :
    List String :=
  ("--- " ++ a_info.dsn) :: ("+++ " ++ b_info.dsn) ::
    ((consideredRels a_info b_info schemas ignore_partitions).map
      (relBlock a_info.rels b_info.rels)).flatten

/-- The difference count `compare` computes (lines 180-184): the number of
printed lines that start with `"@@"`. -/
def compare_count (a_info b_info : Info) (schemas : List String) (ignore_partitions : Bool) : Nat :=
  ((compare_schema a_info b_info schemas ignore_partitions).filter
    (fun l => pyStartswith l "@@")).length

/-- The exit status `main` returns for a comparison run (line 218):
`1 if diffs else 0`. -/
def main_result (diffs : Nat) : Nat := if diffs ≠ 0 then 1 else 0

/-- The Change Records in a diff output: every yielded line except the two
dsn headers and the `@@ Relation` markers. -/
def changeRecords (a_info b_info : Info) (schemas : List String) (ignore_partitions : Bool) :
    List String :=
  ((compare_schema a_info b_info schemas ignore_partitions).drop 2).filter
    (fun l => !(pyStartswith l "@@"))

/-- A row of `information_schema.columns` as `RealDictCursor` returns it: the
three identifying fields (always present in that catalog view) plus the
remaining columns in cursor order, each possibly NULL. -/
structure ColRow where
  table_schema : String
  table_name : String
  column_name : String
  otherProps : List (String × Option String)
deriving DecidableEq

/-- Python's `col.items()` for a column row: every column of the row, the
identifying fields included (the source keeps them in the property bag). -/
def ColRow.items (c : ColRow) : List (String × Option String) :=
  ("table_schema", some c.table_schema) :: ("table_name", some c.table_name) ::
    ("column_name", some c.column_name) :: c.otherProps

/-- The fixed ignore-list of line 53. -/
def ignored_properties : List String :=
  ["table_catalog", "udt_catalog", "ordinal_position", "dtd_identifier"]

/-- In-place modification of the binding of `key`, inserting `f dflt` at the
end when the key is absent: the effect of `d.setdefault(key, dflt)` followed
by mutating the returned value with `f`. -/
def dictModify {α : Type} (key : String) (f : α → α) (dflt : α) :
    List (String × α) → List (String × α)
  | [] => [(key, f dflt)]
  | (k, v) :: rest => if k = key then (k, f v) :: rest else (k, v) :: dictModify key f dflt rest

/-- `rels.setdefault(table, {}).setdefault(key, {})[prop] = val`
(lines 24-26 and 58-62). The gathered values are always dicts, so the
non-dict fallback arm is never reached while gathering. -/
def relsAddProp (table key prop val : String) (rels : Rels) : Rels :=
  dictModify table
    (dictModify key
      (fun v =>
        match v with
        | .dict bag => .dict (dictSet prop (.scalar val) bag)
        | other => other)
      (.dict []))
    [] rels

/-- The bare `setdefault` chain of line 25: create the table and key entries
(with an empty bag) without adding a property yet. -/
def relsTouch (table key : String) (rels : Rels) : Rels :=
  dictModify table (dictModify key id (.dict [])) [] rels

/-- One property of a column row (the loop body of lines 59-62): skip the
ignored bookkeeping properties and NULL values, store everything else. -/
def gatherPropStep (table key : String) (r : Rels) (pv : String × Option String) : Rels :=
  if !(ignored_properties.contains pv.1) then
    match pv.2 with
    | some val => relsAddProp table key pv.1 val r
    | none => r
  else r

/-- One column row of the loop of lines 54-62: skip rows of partition tables,
fold the row's properties into `rels` otherwise. -/
def gatherColStep (parts : List String) (rels : Rels) (col : ColRow) : Rels :=
  if parts.contains (col.table_schema ++ "." ++ col.table_name) then rels
  else
    col.items.foldl
      (gatherPropStep (col.table_schema ++ "." ++ col.table_name)
        ("Column " ++ pyRepr col.column_name))
      rels

/-- The loop of lines 54-62: normalize column rows into `rels`, skipping rows
of partition tables and dropping ignored and NULL-valued properties. -/
def gatherCols (parts : List String) (cols : List ColRow) : Rels :=
  cols.foldl (gatherColStep parts) []

/-- A row of the index or constraint query after `pop`ping its `table` and
`key` columns (lines 21-26): the remaining columns (the `definition`). -/
structure QueryRow where
  table : String
  key : String
  props : List (String × String)
deriving DecidableEq

/-- One row of `gather_query_data`: create the table and key entries
(the `setdefault` chain of line 25) and `update` the bag with the row's
remaining columns (line 26). -/
def gqdRowStep (topic : String) (t : Rels) (row : QueryRow) : Rels :=
  row.props.foldl
    (fun t2 pv => relsAddProp row.table (topic ++ " " ++ pyRepr row.key) pv.1 pv.2 t2)
    (relsTouch row.table (topic ++ " " ++ pyRepr row.key) t)

/-- `gather_query_data(topic, target, ...)` (lines 21-26) over
already-fetched rows. -/
def gather_query_data (topic : String) (target : Rels) (rows : List QueryRow) : Rels :=
  rows.foldl (gqdRowStep topic) target

/-- The pure normalization `gather_data` performs on already-fetched catalog
rows (lines 29-92). The database traffic is the external collaborator of the
spec: `parts` is the partition name set the resolver produced (empty when
partition-ignoring is off), `cols` the rows of the column query, and
`indexRows`/`constraintRows` the rows of the index and constraint queries,
whose SQL has already restricted them to non-partition tables. -/
def gather_data (dsn : String) (parts : List String) (cols : List ColRow)
    (indexRows constraintRows : List QueryRow) : Info :=
  let rels0 := gatherCols parts cols
  let rels1 := gather_query_data "Index" rels0 indexRows
  let rels2 := gather_query_data "Constraint" rels1 constraintRows
  { rels := rels2, dsn := dsn, partitions := pySorted parts }

/-! ### Well-formed snapshot shapes and representation equivalence -/

/-- Every value of the entry list is a scalar: the shape of a gathered
property bag. -/
def ScalarEntries (b : List (String × Value)) : Prop :=
  ∀ kv ∈ b, ∃ s, kv.2 = Value.scalar s

/-- A well-formed property bag: unique keys and scalar values, as
`gather_data` builds them. -/
def WFBag (b : List (String × Value)) : Prop :=
  (keysOf b).Nodup ∧ ScalarEntries b

/-- A well-formed per-relation dict: unique keys, every value a well-formed
property bag. -/
def WFDict (d : List (String × Value)) : Prop :=
  (keysOf d).Nodup ∧ ∀ kv ∈ d, ∃ bag, kv.2 = Value.dict bag ∧ WFBag bag

/-- A well-formed `rels` mapping: unique table names, well-formed per-relation
dicts. -/
def WFRels (r : Rels) : Prop :=
  (keysOf r).Nodup ∧ ∀ td ∈ r, WFDict td.2

/-- A well-formed snapshot, as the normalizer produces and the spec assumes. -/
def WFInfo (i : Info) : Prop := WFRels i.rels

/-- Two snapshot values denote the same Python value: equal scalars, or two
well-formed property bags binding every property name to the same scalar. -/
def VEqv : Value → Value → Prop
  | .scalar s, .scalar t => s = t
  | .dict b, .dict c => WFBag b ∧ WFBag c ∧ ∀ p, dictGet b p = dictGet c p
  | _, _ => False

/-- Lift of `VEqv` to `dict.get` results. -/
def OptVEqv : Option Value → Option Value → Prop
  | none, none => True
  | some v, some w => VEqv v w
  | _, _ => False

/-- Two per-relation dict representations denote the same mapping from keys
to property bags. -/
def DictEqv (d e : List (String × Value)) : Prop :=
  WFDict d ∧ WFDict e ∧ ∀ k, OptVEqv (dictGet d k) (dictGet e k)

/-- Lift of `DictEqv` to `rels.get` results. -/
def OptDictEqv : Option (List (String × Value)) → Option (List (String × Value)) → Prop
  | none, none => True
  | some d, some e => DictEqv d e
  | _, _ => False

/-- Two `rels` representations denote the same snapshot mapping. -/
def RelsEqv (r s : Rels) : Prop :=
  WFRels r ∧ WFRels s ∧ ∀ t, OptDictEqv (dictGet r t) (dictGet s t)

/-- Two `gather_data` results denote the same Snapshot: same identity label,
same exclusion list, and `rels` representing the same mapping (two runs
against an unchanged catalog differ at most in row arrival order, hence in
dict insertion order). -/
def InfoEqv (i j : Info) : Prop :=
  i.dsn = j.dsn ∧ i.partitions = j.partitions ∧ RelsEqv i.rels j.rels

/-- The relations a run counts: the considered names whose two sides differ,
i.e. exactly those for which an `@@ Relation` marker is yielded (line 148). -/
def differingRels (a_info b_info : Info) (schemas : List String) (ign : Bool) : List String :=
  (consideredRels a_info b_info schemas ign).filter
    (fun rel => !(pyEqOptDict (dictGet a_info.rels rel) (dictGet b_info.rels rel)))

/-- A snapshot with one relation deleted from its `rels` dict. -/
def eraseRel (rel : String) (i : Info) : Info :=
  { i with rels := i.rels.filter (fun td => decide (td.1 ≠ rel)) }

/-- Modelled from the SPEC wording of 4.3, for comparison with `cdItems`:
the union of the two key sets in lexicographically sorted order. -/
def sortedUnionKeys (a b : List (String × Value)) : List String :=
  pySorted (dedupFirst [] (keysOf a ++ keysOf b))

/-- Modelled from the SPEC output grammar of 6: a single Changed record
`<topic> <key> is <value_a> in <A>, <value_b> in <B>` (topic and key make up
the joined key path `desc`). -/
def specChangedLine (desc va inA vb inB : String) : String :=
  desc ++ " is " ++ va ++ " in " ++ inA ++ ", " ++ vb ++ " in " ++ inB

instance decIsScalarValue (v : Value) : Decidable (∃ s, v = Value.scalar s) :=
  match v with
  | .scalar s => isTrue ⟨s, rfl⟩
  | .dict _ => isFalse (by rintro ⟨s, h⟩; cases h)

instance decScalarEntries (b : List (String × Value)) : Decidable (ScalarEntries b) :=
  inferInstanceAs (Decidable (∀ kv ∈ b, ∃ s, kv.2 = Value.scalar s))

instance decWFBag (b : List (String × Value)) : Decidable (WFBag b) :=
  inferInstanceAs (Decidable (_ ∧ _))

instance decIsWFBagValue (v : Value) : Decidable (∃ bag, v = Value.dict bag ∧ WFBag bag) :=
  match v with
  | .scalar _ => isFalse (by rintro ⟨bag, h, _⟩; cases h)
  | .dict d =>
    if h : WFBag d then isTrue ⟨d, rfl, h⟩
    else isFalse (by rintro ⟨bag, heq, hw⟩; cases heq; exact h hw)

instance decWFDict (d : List (String × Value)) : Decidable (WFDict d) :=
  inferInstanceAs (Decidable (_ ∧ ∀ kv ∈ d, ∃ bag, kv.2 = Value.dict bag ∧ WFBag bag))

instance decWFRels (r : Rels) : Decidable (WFRels r) :=
  inferInstanceAs (Decidable (_ ∧ ∀ td ∈ r, WFDict td.2))

instance decWFInfo (i : Info) : Decidable (WFInfo i) :=
  inferInstanceAs (Decidable (WFRels i.rels))

/-! ### Concrete sample snapshots, for exercising the model -/

/-- Snapshot A of the worked example: `public.users` has column `email` with
one property. -/
def infoUsers : Info :=
  { rels := [("public.users",
      [("Column \x27email\x27", Value.dict [("data_type", Value.scalar "text")])])],
    dsn := "dsnA", partitions := [] }

/-- Snapshot B of the worked example: no relations at all. -/
def infoEmpty : Info := { rels := [], dsn := "dsnB", partitions := [] }

/-- A property bag with two entries, in one insertion order... -/
def bagPQ : List (String × Value) := [("p", Value.scalar "1"), ("q", Value.scalar "2")]

/-- ...and the same bag with the opposite insertion order. -/
def bagQP : List (String × Value) := [("q", Value.scalar "2"), ("p", Value.scalar "1")]

/-- A snapshot holding `bagPQ` under one column of one relation. -/
def infoPQ : Info := { rels := [("t", [("c", Value.dict bagPQ)])], dsn := "d", partitions := [] }

/-- The same snapshot with the bag in the opposite insertion order. -/
def infoQP : Info := { rels := [("t", [("c", Value.dict bagQP)])], dsn := "d", partitions := [] }

/-- Two sides that agree on relation and column names but differ in two
property values. -/
def infoProps1 : Info :=
  { rels := [("public.t", [("Column \x27c\x27",
      Value.dict [("p", Value.scalar "1"), ("q", Value.scalar "2")])])],
    dsn := "dsnA", partitions := [] }

/-- The other side of `infoProps1`, with both property values changed. -/
def infoProps2 : Info :=
  { rels := [("public.t", [("Column \x27c\x27",
      Value.dict [("p", Value.scalar "3"), ("q", Value.scalar "4")])])],
    dsn := "dsnB", partitions := [] }

/-- A side whose partition-listed relation `s.t` has content... -/
def infoPartA : Info :=
  { rels := [("s.t", [("c", Value.dict [("p", Value.scalar "1")])])],
    dsn := "da", partitions := ["s.t"] }

/-- ...against a side that lacks it entirely. -/
def infoPartB : Info := { rels := [], dsn := "db", partitions := [] }


/-! ### Basic facts about the dict model, sorting and the seen-set loop -/

/-- Size bound used for the recursion of the diff over nested dicts. -/
theorem dictGet_sizeOf {d : List (String × Value)} {k : String} {v : Value}
    (h : dictGet d k = some v) : sizeOf v < sizeOf d := by
  induction d with
  | nil => simp [dictGet] at h
  | cons kv rest ih =>
    obtain ⟨k', v'⟩ := kv
    by_cases hk : k' = k
    · simp [dictGet, hk] at h
      subst h
      simp
      omega
    · simp [dictGet, hk] at h
      have := ih h
      simp
      omega

theorem keysOf_cons {α : Type} (k : String) (v : α) (rest : List (String × α)) :
    keysOf ((k, v) :: rest) = k :: keysOf rest := rfl

theorem mem_of_dictGet_eq_some {α : Type} {d : List (String × α)} {k : String} {v : α}
    (h : dictGet d k = some v) : (k, v) ∈ d := by
  induction d with
  | nil => simp [dictGet] at h
  | cons kv rest ih =>
    obtain ⟨k', v'⟩ := kv
    by_cases hk : k' = k
    · subst hk
      simp [dictGet] at h
      subst h
      exact List.mem_cons_self _ _
    · simp [dictGet, hk] at h
      exact List.mem_cons_of_mem _ (ih h)

theorem dictGet_eq_some_of_mem {α : Type} {d : List (String × α)} {k : String} {v : α}
    (hnd : (keysOf d).Nodup) (h : (k, v) ∈ d) : dictGet d k = some v := by
  induction d with
  | nil => simp at h
  | cons kv rest ih =>
    obtain ⟨k', v'⟩ := kv
    have hnd' := List.nodup_cons.mp (keysOf_cons k' v' rest ▸ hnd)
    rcases List.mem_cons.mp h with h' | h'
    · rw [Prod.mk.injEq] at h'
      obtain ⟨rfl, rfl⟩ := h'
      simp [dictGet]
    · have hk : k' ≠ k := by
        rintro rfl
        exact hnd'.1 (List.mem_map_of_mem Prod.fst h')
      rw [show dictGet ((k', v') :: rest) k = dictGet rest k from by simp [dictGet, hk]]
      exact ih hnd'.2 h'

theorem mem_keysOf_iff_get {α : Type} {d : List (String × α)} {k : String} :
    k ∈ keysOf d ↔ ∃ v, dictGet d k = some v := by
  induction d with
  | nil => simp [keysOf, dictGet]
  | cons kv rest ih =>
    obtain ⟨k', v'⟩ := kv
    by_cases hk : k' = k
    · subst hk
      refine ⟨fun _ => ⟨v', by simp [dictGet]⟩, fun _ => ?_⟩
      show k' ∈ k' :: keysOf rest
      exact List.mem_cons_self _ _
    · rw [keysOf_cons, List.mem_cons]
      rw [show dictGet ((k', v') :: rest) k = dictGet rest k from by simp [dictGet, hk]]
      rw [← ih]
      simp [Ne.symm hk]

theorem dictGet_eq_none_iff {α : Type} {d : List (String × α)} {k : String} :
    dictGet d k = none ↔ k ∉ keysOf d := by
  rw [mem_keysOf_iff_get]
  cases h : dictGet d k <;> simp

theorem pySorted_perm (l : List String) : (pySorted l).Perm l :=
  List.perm_insertionSort _ l

theorem pySorted_sorted (l : List String) : (pySorted l).Sorted (· ≤ ·) :=
  List.sorted_insertionSort _ l

theorem pySorted_eq_of_perm {l₁ l₂ : List String} (h : l₁.Perm l₂) : pySorted l₁ = pySorted l₂ :=
  List.eq_of_perm_of_sorted
    ((pySorted_perm l₁).trans (h.trans (pySorted_perm l₂).symm))
    (pySorted_sorted _) (pySorted_sorted _)

theorem pySorted_nodup {l : List String} (h : l.Nodup) : (pySorted l).Nodup :=
  (pySorted_perm l).nodup_iff.mpr h

theorem mem_pySorted {l : List String} {x : String} : x ∈ pySorted l ↔ x ∈ l :=
  (pySorted_perm l).mem_iff

theorem dedupFirst_congr {seen₁ seen₂ : List String}
    (h : ∀ x, x ∈ seen₁ ↔ x ∈ seen₂) : ∀ l, dedupFirst seen₁ l = dedupFirst seen₂ l := by
  intro l
  induction l generalizing seen₁ seen₂ with
  | nil => simp [dedupFirst]
  | cons k ks ih =>
    by_cases hk : k ∈ seen₁
    · simp only [dedupFirst, if_pos hk, if_pos ((h k).mp hk)]
      exact ih h
    · have hk₂ : k ∉ seen₂ := fun hh => hk ((h k).mpr hh)
      simp only [dedupFirst, if_neg hk, if_neg hk₂]
      congr 1
      exact ih (fun x => by rw [List.mem_cons, List.mem_cons, h x])

theorem mem_dedupFirst {seen l : List String} {x : String} :
    x ∈ dedupFirst seen l ↔ x ∈ l ∧ x ∉ seen := by
  induction l generalizing seen with
  | nil => simp [dedupFirst]
  | cons k ks ih =>
    simp only [dedupFirst]
    by_cases hk : k ∈ seen
    · rw [if_pos hk, ih]
      constructor
      · rintro ⟨h1, h2⟩
        exact ⟨List.mem_cons_of_mem _ h1, h2⟩
      · rintro ⟨hmem, h2⟩
        rcases List.mem_cons.mp hmem with rfl | h1
        · exact absurd hk h2
        · exact ⟨h1, h2⟩
    · rw [if_neg hk]
      constructor
      · intro hmem
        rcases List.mem_cons.mp hmem with rfl | hmem
        · exact ⟨List.mem_cons_self _ _, hk⟩
        · obtain ⟨h1, h2⟩ := ih.mp hmem
          exact ⟨List.mem_cons_of_mem _ h1, fun hh => h2 (List.mem_cons_of_mem _ hh)⟩
      · rintro ⟨hmem, h2⟩
        rcases List.mem_cons.mp hmem with rfl | h1
        · exact List.mem_cons_self _ _
        · by_cases hx : x = k
          · exact hx ▸ List.mem_cons_self _ _
          · refine List.mem_cons_of_mem _ (ih.mpr ⟨h1, fun hh => ?_⟩)
            rcases List.mem_cons.mp hh with rfl | hh
            · exact hx rfl
            · exact h2 hh

theorem dedupFirst_nodup (seen l : List String) : (dedupFirst seen l).Nodup := by
  induction l generalizing seen with
  | nil => simp [dedupFirst]
  | cons k ks ih =>
    by_cases hk : k ∈ seen
    · simpa [dedupFirst, hk] using ih seen
    · simp only [dedupFirst, if_neg hk]
      refine List.nodup_cons.mpr ⟨?_, ih _⟩
      rw [mem_dedupFirst]
      simp

theorem dedupFirst_append (seen xs ys : List String) :
    dedupFirst seen (xs ++ ys) = dedupFirst seen xs ++ dedupFirst (xs ++ seen) ys := by
  induction xs generalizing seen with
  | nil => simp [dedupFirst]
  | cons k ks ih =>
    show dedupFirst seen (k :: (ks ++ ys)) =
      dedupFirst seen (k :: ks) ++ dedupFirst (k :: (ks ++ seen)) ys
    by_cases hk : k ∈ seen
    · rw [show dedupFirst seen (k :: (ks ++ ys)) = dedupFirst seen (ks ++ ys) from by
          simp [dedupFirst, hk],
        show dedupFirst seen (k :: ks) = dedupFirst seen ks from by simp [dedupFirst, hk],
        ih seen]
      congr 1
      refine dedupFirst_congr (fun x => ⟨fun hh => List.mem_cons_of_mem _ hh, fun hh => ?_⟩) ys
      rcases List.mem_cons.mp hh with rfl | hh
      · exact List.mem_append.mpr (Or.inr hk)
      · exact hh
    · rw [show dedupFirst seen (k :: (ks ++ ys)) = k :: dedupFirst (k :: seen) (ks ++ ys) from by
          simp [dedupFirst, hk],
        show dedupFirst seen (k :: ks) = k :: dedupFirst (k :: seen) ks from by
          simp [dedupFirst, hk],
        ih (k :: seen)]
      rw [List.cons_append]
      congr 2
      exact dedupFirst_congr (fun x => by
        rw [List.mem_append, List.mem_cons, List.mem_cons, List.mem_append]
        tauto) ys

theorem dedupFirst_eq_filter {l : List String} (h : l.Nodup) (seen : List String) :
    dedupFirst seen l = l.filter (fun x => decide (x ∉ seen)) := by
  induction l generalizing seen with
  | nil => simp [dedupFirst]
  | cons k ks ih =>
    have hnd : ks.Nodup := (List.nodup_cons.mp h).2
    have hkks : k ∉ ks := (List.nodup_cons.mp h).1
    by_cases hk : k ∈ seen
    · rw [show dedupFirst seen (k :: ks) = dedupFirst seen ks from by simp [dedupFirst, hk],
        List.filter_cons, if_neg (by simp [hk])]
      exact ih hnd seen
    · rw [show dedupFirst seen (k :: ks) = k :: dedupFirst (k :: seen) ks from by
          simp [dedupFirst, hk],
        List.filter_cons, if_pos (by simpa using hk)]
      congr 1
      rw [ih hnd (k :: seen)]
      apply List.filter_congr
      intro x hx
      have hxk : x ≠ k := fun hh => hkks (hh ▸ hx)
      rw [decide_eq_decide]
      simp [List.mem_cons, hxk]


theorem OptVEqv_isSome_eq {o₁ o₂ : Option Value} (h : OptVEqv o₁ o₂) :
    o₁.isSome = o₂.isSome := by
  cases o₁ <;> cases o₂ <;> simp_all [OptVEqv]

theorem OptDictEqv_isSome_eq {o₁ o₂ : Option (List (String × Value))} (h : OptDictEqv o₁ o₂) :
    o₁.isSome = o₂.isSome := by
  cases o₁ <;> cases o₂ <;> simp_all [OptDictEqv]

theorem keysOf_length {α : Type} (d : List (String × α)) : (keysOf d).length = d.length :=
  List.length_map _ _

theorem keysOf_perm_of_isSome_eq {α : Type} {d e : List (String × α)}
    (hd : (keysOf d).Nodup) (he : (keysOf e).Nodup)
    (h : ∀ k, (dictGet d k).isSome = (dictGet e k).isSome) :
    (keysOf d).Perm (keysOf e) := by
  rw [List.perm_ext_iff_of_nodup hd he]
  intro k
  rw [mem_keysOf_iff_get, mem_keysOf_iff_get, ← Option.isSome_iff_exists,
    ← Option.isSome_iff_exists, h k]

/-! ### Characterizing the Python equality test on well-formed values -/

theorem pyEq_scalar_refl (s : String) : pyEq (.scalar s) (.scalar s) = true := by
  simp [pyEq]

theorem pyEqEntries_iff {d e : List (String × Value)} :
    pyEqEntries d e = true ↔
      ∀ kv ∈ d, ∃ w, dictGet e kv.1 = some w ∧ pyEq kv.2 w = true := by
  induction d with
  | nil => simp [pyEqEntries]
  | cons kv rest ih =>
    obtain ⟨k, v⟩ := kv
    cases hg : dictGet e k with
    | none => simp [pyEqEntries, hg, List.forall_mem_cons]
    | some w => simp [pyEqEntries, hg, List.forall_mem_cons, ih]

theorem pyEq_dict_iff {d e : List (String × Value)} :
    pyEq (.dict d) (.dict e) = true ↔ d.length = e.length ∧ pyEqEntries d e = true := by
  simp [pyEq, Bool.and_eq_true]

theorem pyEq_bag_iff {b c : List (String × Value)} (hb : WFBag b) (hc : WFBag c) :
    pyEq (.dict b) (.dict c) = true ↔ ∀ p, dictGet b p = dictGet c p := by
  rw [pyEq_dict_iff, pyEqEntries_iff]
  constructor
  · rintro ⟨hlen, hent⟩ p
    cases hgb : dictGet b p with
    | some v =>
      obtain ⟨w, hgc, hvw⟩ := hent _ (mem_of_dictGet_eq_some hgb)
      obtain ⟨s, rfl⟩ := hb.2 _ (mem_of_dictGet_eq_some hgb)
      obtain ⟨t, rfl⟩ := hc.2 _ (mem_of_dictGet_eq_some hgc)
      simp [pyEq] at hvw
      rw [hgc, hvw]
    | none =>
      have hsub : keysOf b ⊆ keysOf c := by
        intro k hk
        obtain ⟨v, hv⟩ := mem_keysOf_iff_get.mp hk
        obtain ⟨w, hgc, _⟩ := hent _ (mem_of_dictGet_eq_some hv)
        exact mem_keysOf_iff_get.mpr ⟨w, hgc⟩
      have hperm : (keysOf b).Perm (keysOf c) :=
        (hb.1.subperm hsub).perm_of_length_le
          (by rw [keysOf_length, keysOf_length, hlen])
      have : p ∉ keysOf c := fun hh =>
        (dictGet_eq_none_iff.mp hgb) (hperm.mem_iff.mpr hh)
      rw [dictGet_eq_none_iff.mpr this]
  · intro hgets
    have hperm : (keysOf b).Perm (keysOf c) :=
      keysOf_perm_of_isSome_eq hb.1 hc.1 (fun k => by rw [hgets k])
    refine ⟨by rw [← keysOf_length, ← keysOf_length, hperm.length_eq], ?_⟩
    rintro ⟨p, v⟩ hkv
    have hg : dictGet b p = some v := dictGet_eq_some_of_mem hb.1 hkv
    refine ⟨v, by rw [← hgets p]; exact hg, ?_⟩
    obtain ⟨s, rfl⟩ := hb.2 _ hkv
    exact pyEq_scalar_refl s

/-! ### Congruence of the diff under change of dict representation -/

theorem WFDict_get {d : List (String × Value)} {k : String} {v : Value}
    (h : WFDict d) (hg : dictGet d k = some v) : ∃ bag, v = .dict bag ∧ WFBag bag :=
  h.2 _ (mem_of_dictGet_eq_some hg)

theorem WFBag_get {b : List (String × Value)} {p : String} {v : Value}
    (h : WFBag b) (hg : dictGet b p = some v) : ∃ s, v = .scalar s :=
  h.2 _ (mem_of_dictGet_eq_some hg)

theorem VEqv_symm {v w : Value} (h : VEqv v w) : VEqv w v := by
  cases v <;> cases w
  · exact (h : _ = _).symm
  · exact ((h : False).elim)
  · exact ((h : False).elim)
  · obtain ⟨h1, h2, h3⟩ := (h : _ ∧ _ ∧ _)
    exact ⟨h2, h1, fun p => (h3 p).symm⟩

theorem OptVEqv_symm {o₁ o₂ : Option Value} (h : OptVEqv o₁ o₂) : OptVEqv o₂ o₁ := by
  cases o₁ <;> cases o₂
  · trivial
  · exact ((h : False).elim)
  · exact ((h : False).elim)
  · exact VEqv_symm h

theorem DictEqv_symm {d e : List (String × Value)} (h : DictEqv d e) : DictEqv e d :=
  ⟨h.2.1, h.1, fun k => OptVEqv_symm (h.2.2 k)⟩

theorem OptDictEqv_symm {o₁ o₂ : Option (List (String × Value))} (h : OptDictEqv o₁ o₂) :
    OptDictEqv o₂ o₁ := by
  cases o₁ <;> cases o₂
  · trivial
  · exact ((h : False).elim)
  · exact ((h : False).elim)
  · exact DictEqv_symm h

theorem pyEq_congr {v v' w w' : Value} (hv : VEqv v v') (hw : VEqv w w') :
    pyEq v w = pyEq v' w' := by
  cases v with
  | scalar s =>
    cases v' with
    | dict _ => exact ((hv : False).elim)
    | scalar s' =>
      have hs : s = s' := hv
      subst hs
      cases w with
      | scalar t =>
        cases w' with
        | dict _ => exact ((hw : False).elim)
        | scalar t' =>
          have ht : t = t' := hw
          subst ht
          rfl
      | dict c =>
        cases w' with
        | scalar _ => exact ((hw : False).elim)
        | dict c' => rfl
  | dict b =>
    cases v' with
    | scalar _ => exact ((hv : False).elim)
    | dict b' =>
      obtain ⟨hwb, hwb', hgb⟩ := (hv : _ ∧ _ ∧ _)
      cases w with
      | scalar t =>
        cases w' with
        | dict _ => exact ((hw : False).elim)
        | scalar t' => rfl
      | dict c =>
        cases w' with
        | scalar _ => exact ((hw : False).elim)
        | dict c' =>
          obtain ⟨hwc, hwc', hgc⟩ := (hw : _ ∧ _ ∧ _)
          have e1 := pyEq_bag_iff hwb hwc
          have e2 := pyEq_bag_iff hwb' hwc'
          have hiff : (∀ p, dictGet b p = dictGet c p) ↔
              (∀ p, dictGet b' p = dictGet c' p) := by
            constructor <;> intro h p
            · rw [← hgb p, ← hgc p]
              exact h p
            · rw [hgb p, hgc p]
              exact h p
          cases hbc : pyEq (.dict b) (.dict c) with
          | true => exact (e2.mpr (hiff.mp (e1.mp hbc))).symm
          | false =>
            cases hbc' : pyEq (.dict b') (.dict c') with
            | false => rfl
            | true => exact absurd (e1.mpr (hiff.mpr (e2.mp hbc'))) (by simp [hbc])

theorem pyEqOpt_congr {o₁ o₁' o₂ o₂' : Option Value}
    (h₁ : OptVEqv o₁ o₁') (h₂ : OptVEqv o₂ o₂') : pyEqOpt o₁ o₂ = pyEqOpt o₁' o₂' := by
  cases o₁ <;> cases o₁' <;> cases o₂ <;> cases o₂' <;>
    first
      | rfl
      | exact ((h₁ : False).elim)
      | exact ((h₂ : False).elim)
      | exact pyEq_congr h₁ h₂

theorem DictEqv_keys_perm {d e : List (String × Value)} (h : DictEqv d e) :
    (keysOf d).Perm (keysOf e) :=
  keysOf_perm_of_isSome_eq h.1.1 h.2.1.1 (fun k => OptVEqv_isSome_eq (h.2.2 k))

theorem pyEq_dictLevel_mp {d d' e e' : List (String × Value)}
    (hd : DictEqv d d') (he : DictEqv e e')
    (h : pyEq (.dict d) (.dict e) = true) : pyEq (.dict d') (.dict e') = true := by
  rw [pyEq_dict_iff, pyEqEntries_iff] at h ⊢
  obtain ⟨hlen, hent⟩ := h
  have hpermd := DictEqv_keys_perm hd
  have hperme := DictEqv_keys_perm he
  constructor
  · rw [← keysOf_length, ← keysOf_length, ← hpermd.length_eq, ← hperme.length_eq,
      keysOf_length, keysOf_length]
    exact hlen
  · rintro ⟨k, v'⟩ hkv
    have hg' : dictGet d' k = some v' := dictGet_eq_some_of_mem hd.2.1.1 hkv
    have h1 := hd.2.2 k
    rw [hg'] at h1
    cases hgd : dictGet d k with
    | none =>
      rw [hgd] at h1
      exact ((h1 : False).elim)
    | some v =>
      rw [hgd] at h1
      obtain ⟨w, hgw, hvw⟩ := hent _ (mem_of_dictGet_eq_some hgd)
      have h2 := he.2.2 k
      rw [hgw] at h2
      cases hgw' : dictGet e' k with
      | none =>
        rw [hgw'] at h2
        exact ((h2 : False).elim)
      | some w' =>
        rw [hgw'] at h2
        exact ⟨w', rfl, by rw [← pyEq_congr (h1 : VEqv v v') (h2 : VEqv w w')]; exact hvw⟩

theorem pyEq_dictLevel_congr {d d' e e' : List (String × Value)}
    (hd : DictEqv d d') (he : DictEqv e e') :
    pyEq (.dict d) (.dict e) = pyEq (.dict d') (.dict e') := by
  cases hbc : pyEq (.dict d) (.dict e) with
  | true => exact (pyEq_dictLevel_mp hd he hbc).symm
  | false =>
    cases hbc' : pyEq (.dict d') (.dict e') with
    | false => rfl
    | true =>
      exact absurd (pyEq_dictLevel_mp (DictEqv_symm hd) (DictEqv_symm he) hbc')
        (by simp [hbc])

theorem pyEqOptDict_congr {o₁ o₁' o₂ o₂' : Option (List (String × Value))}
    (h₁ : OptDictEqv o₁ o₁') (h₂ : OptDictEqv o₂ o₂') :
    pyEqOptDict o₁ o₂ = pyEqOptDict o₁' o₂' := by
  cases o₁ <;> cases o₁' <;> cases o₂ <;> cases o₂' <;>
    first
      | rfl
      | exact ((h₁ : False).elim)
      | exact ((h₂ : False).elim)
      | exact pyEq_dictLevel_congr h₁ h₂

theorem VEqv_dict_singleton {c : List (String × Value)} {k : String} {v : Value}
    (h : VEqv (.dict [(k, v)]) (.dict c)) : c = [(k, v)] := by
  obtain ⟨hb, hc, hg⟩ := (h : _ ∧ _ ∧ _)
  have hperm : (keysOf [(k, v)]).Perm (keysOf c) :=
    keysOf_perm_of_isSome_eq hb.1 hc.1 (fun p => by rw [hg p])
  have hck : keysOf c = [k] := List.perm_singleton.mp hperm.symm
  cases c with
  | nil => cases hck
  | cons kv rest =>
    obtain ⟨k₂, w⟩ := kv
    cases rest with
    | cons _ _ => simp [keysOf] at hck
    | nil =>
      rw [keysOf_cons] at hck
      have hk₂ : k₂ = k := by
        have := List.head_eq_of_cons_eq hck
        exact this
      subst hk₂
      have hvv := hg k₂
      simp [dictGet] at hvv
      rw [hvv]

theorem oneSidedLine_congr {v v' : Value} (h : VEqv v v') (sign itemdesc : String) :
    oneSidedLine sign itemdesc v = oneSidedLine sign itemdesc v' := by
  cases v with
  | scalar s =>
    cases v' with
    | scalar t => rfl
    | dict _ => exact ((h : False).elim)
  | dict bag =>
    cases v' with
    | scalar _ => exact ((h : False).elim)
    | dict bag' =>
      obtain ⟨hwb, hwb', hg⟩ := (h : _ ∧ _ ∧ _)
      have hperm : (keysOf bag).Perm (keysOf bag') :=
        keysOf_perm_of_isSome_eq hwb.1 hwb'.1 (fun p => by rw [hg p])
      cases bag with
      | nil =>
        have hlen0 : (keysOf bag').length = 0 := by
          rw [← hperm.length_eq]
          rfl
        have hb' : bag' = [] := by
          cases bag' with
          | nil => rfl
          | cons _ _ => simp [keysOf] at hlen0
        subst hb'
        rfl
      | cons kv rest =>
        obtain ⟨k, v⟩ := kv
        cases rest with
        | nil =>
          rw [VEqv_dict_singleton
            (show VEqv (.dict [(k, v)]) (.dict bag') from ⟨hwb, hwb', hg⟩)]
        | cons kv₂ rest₂ =>
          have hlen : (keysOf bag').length = rest₂.length + 2 := by
            rw [← hperm.length_eq]
            simp [keysOf]
          cases bag' with
          | nil => simp [keysOf] at hlen
          | cons x xs =>
            cases xs with
            | nil => simp [keysOf] at hlen
            | cons y ys => rfl

/-! ### Step equations for the diff loop -/

theorem cdGo_nil (a b : List (String × Value)) (path : List String) :
    cdGo [] a b path = [] := by
  simp only [cdGo]

theorem cdGo_cons_noneNone {a b : List (String × Value)} {item : String} {rest path : List String}
    (hga : dictGet a item = none) (hgb : dictGet b item = none) :
    cdGo (item :: rest) a b path = cdGo rest a b path := by
  simp only [cdGo]
  rw [hga, hgb, if_pos (show pyEqOpt none none = true from rfl)]

theorem cdGo_cons_someSome_eq {a b : List (String × Value)} {item : String} {rest path : List String}
    {av bv : Value} (hga : dictGet a item = some av) (hgb : dictGet b item = some bv)
    (heq : pyEq av bv = true) :
    cdGo (item :: rest) a b path = cdGo rest a b path := by
  simp only [cdGo]
  rw [hga, hgb, if_pos (show pyEqOpt (some av) (some bv) = true from heq)]

theorem cdGo_cons_someNone {a b : List (String × Value)} {item : String} {rest path : List String}
    {av : Value} (hga : dictGet a item = some av) (hgb : dictGet b item = none) :
    cdGo (item :: rest) a b path =
      oneSidedLine "-" (String.intercalate " " (path ++ [item])) av :: cdGo rest a b path := by
  simp only [cdGo]
  rw [hga, hgb, if_neg (show ¬pyEqOpt (some av) none = true from by simp [pyEqOpt])]
  split <;> simp_all

theorem cdGo_cons_noneSome {a b : List (String × Value)} {item : String} {rest path : List String}
    {bv : Value} (hga : dictGet a item = none) (hgb : dictGet b item = some bv) :
    cdGo (item :: rest) a b path =
      oneSidedLine "+" (String.intercalate " " (path ++ [item])) bv :: cdGo rest a b path := by
  simp only [cdGo]
  rw [hga, hgb, if_neg (show ¬pyEqOpt none (some bv) = true from by simp [pyEqOpt])]

theorem cdGo_cons_someSome_dicts {a b : List (String × Value)} {item : String}
    {rest path : List String} {d1 d2 : List (String × Value)}
    (hga : dictGet a item = some (.dict d1)) (hgb : dictGet b item = some (.dict d2))
    (hne : pyEq (.dict d1) (.dict d2) = false) :
    cdGo (item :: rest) a b path =
      cdGo (cdItems d1 d2) d1 d2 (path ++ [item]) ++ cdGo rest a b path := by
  simp only [cdGo]
  rw [hga, hgb,
    if_neg (show ¬pyEqOpt (some (.dict d1)) (some (.dict d2)) = true from by simp [pyEqOpt, hne])]

theorem cdGo_cons_someSome_mixed {a b : List (String × Value)} {item : String}
    {rest path : List String} {av bv : Value}
    (hga : dictGet a item = some av) (hgb : dictGet b item = some bv)
    (hne : pyEq av bv = false)
    (hmix : ∀ d1 d2 : List (String × Value), av = .dict d1 → bv = .dict d2 → False) :
    cdGo (item :: rest) a b path =
      ("-" ++ String.intercalate " " (path ++ [item]) ++ " " ++ pyStr av) ::
        ("+" ++ String.intercalate " " (path ++ [item]) ++ " " ++ pyStr bv) ::
        cdGo rest a b path := by
  simp only [cdGo]
  rw [hga, hgb, if_neg (show ¬pyEqOpt (some av) (some bv) = true from by simp [pyEqOpt, hne])]
  split <;> simp_all

theorem cdItems_congr {a₁ a₂ b₁ b₂ : List (String × Value)}
    (ha : (keysOf a₁).Perm (keysOf a₂)) (hb : (keysOf b₁).Perm (keysOf b₂)) :
    cdItems a₁ b₁ = cdItems a₂ b₂ := by
  unfold cdItems
  rw [pySorted_eq_of_perm ha, pySorted_eq_of_perm hb]

theorem cdGo_congr_getEq {a₁ b₁ a₂ b₂ : List (String × Value)}
    (ha : ∀ k, dictGet a₁ k = dictGet a₂ k) (hb : ∀ k, dictGet b₁ k = dictGet b₂ k) :
    ∀ items path, cdGo items a₁ b₁ path = cdGo items a₂ b₂ path := by
  intro items
  induction items with
  | nil => intro path; simp only [cdGo]
  | cons item rest ih =>
    intro path
    simp only [cdGo]
    rw [ha item, hb item]
    simp only [ih]

theorem cdGo_congr_dictLevel {a₁ b₁ a₂ b₂ : List (String × Value)}
    (hd : DictEqv a₁ a₂) (he : DictEqv b₁ b₂) :
    ∀ items path, cdGo items a₁ b₁ path = cdGo items a₂ b₂ path := by
  intro items
  induction items with
  | nil => intro path; rw [cdGo_nil, cdGo_nil]
  | cons item rest ih =>
    intro path
    have hA := hd.2.2 item
    have hB := he.2.2 item
    cases hga₁ : dictGet a₁ item with
    | none =>
      rw [hga₁] at hA
      cases hga₂ : dictGet a₂ item with
      | some _ =>
        rw [hga₂] at hA
        exact ((hA : False).elim)
      | none =>
        rw [hga₂] at hA
        cases hgb₁ : dictGet b₁ item with
        | none =>
          rw [hgb₁] at hB
          cases hgb₂ : dictGet b₂ item with
          | some _ =>
            rw [hgb₂] at hB
            exact ((hB : False).elim)
          | none =>
            rw [cdGo_cons_noneNone hga₁ hgb₁, cdGo_cons_noneNone hga₂ hgb₂]
            exact ih path
        | some bv₁ =>
          rw [hgb₁] at hB
          cases hgb₂ : dictGet b₂ item with
          | none =>
            rw [hgb₂] at hB
            exact ((hB : False).elim)
          | some bv₂ =>
            rw [hgb₂] at hB
            rw [cdGo_cons_noneSome hga₁ hgb₁, cdGo_cons_noneSome hga₂ hgb₂,
              oneSidedLine_congr (hB : VEqv bv₁ bv₂), ih path]
    | some av₁ =>
      rw [hga₁] at hA
      cases hga₂ : dictGet a₂ item with
      | none =>
        rw [hga₂] at hA
        exact ((hA : False).elim)
      | some av₂ =>
        rw [hga₂] at hA
        cases hgb₁ : dictGet b₁ item with
        | none =>
          rw [hgb₁] at hB
          cases hgb₂ : dictGet b₂ item with
          | some _ =>
            rw [hgb₂] at hB
            exact ((hB : False).elim)
          | none =>
            rw [cdGo_cons_someNone hga₁ hgb₁, cdGo_cons_someNone hga₂ hgb₂,
              oneSidedLine_congr (hA : VEqv av₁ av₂), ih path]
        | some bv₁ =>
          rw [hgb₁] at hB
          cases hgb₂ : dictGet b₂ item with
          | none =>
            rw [hgb₂] at hB
            exact ((hB : False).elim)
          | some bv₂ =>
            rw [hgb₂] at hB
            obtain ⟨d₁, rfl, hwfd₁⟩ := WFDict_get hd.1 hga₁
            obtain ⟨d₂, rfl, hwfd₂⟩ := WFDict_get hd.2.1 hga₂
            obtain ⟨e₁, rfl, hwfe₁⟩ := WFDict_get he.1 hgb₁
            obtain ⟨e₂, rfl, hwfe₂⟩ := WFDict_get he.2.1 hgb₂
            have htest : pyEq (.dict d₁) (.dict e₁) = pyEq (.dict d₂) (.dict e₂) :=
              pyEq_congr (hA : VEqv (.dict d₁) (.dict d₂)) (hB : VEqv (.dict e₁) (.dict e₂))
            cases hpq : pyEq (.dict d₂) (.dict e₂) with
            | true =>
              rw [cdGo_cons_someSome_eq hga₁ hgb₁ (htest.trans hpq),
                cdGo_cons_someSome_eq hga₂ hgb₂ hpq]
              exact ih path
            | false =>
              obtain ⟨_, _, hgd⟩ := (hA : _ ∧ _ ∧ _)
              obtain ⟨_, _, hge⟩ := (hB : _ ∧ _ ∧ _)
              have hpermd : (keysOf d₁).Perm (keysOf d₂) :=
                keysOf_perm_of_isSome_eq hwfd₁.1 hwfd₂.1 (fun p => by rw [hgd p])
              have hperme : (keysOf e₁).Perm (keysOf e₂) :=
                keysOf_perm_of_isSome_eq hwfe₁.1 hwfe₂.1 (fun p => by rw [hge p])
              rw [cdGo_cons_someSome_dicts hga₁ hgb₁ (htest.trans hpq),
                cdGo_cons_someSome_dicts hga₂ hgb₂ hpq,
                cdItems_congr hpermd hperme, ih path,
                cdGo_congr_getEq hgd hge (cdItems d₂ e₂) (path ++ [item])]

theorem dedupFirst_perm_of_perm {l₁ l₂ : List String} (h : l₁.Perm l₂) :
    (dedupFirst [] l₁).Perm (dedupFirst [] l₂) := by
  apply (List.perm_ext_iff_of_nodup (dedupFirst_nodup _ _) (dedupFirst_nodup _ _)).mpr
  intro x
  rw [mem_dedupFirst, mem_dedupFirst]
  simp [h.mem_iff]

theorem compare_dicts_congr {a₁ b₁ a₂ b₂ : List (String × Value)}
    (hd : DictEqv a₁ a₂) (he : DictEqv b₁ b₂) (path : List String) :
    compare_dicts a₁ b₁ path = compare_dicts a₂ b₂ path := by
  unfold compare_dicts
  rw [cdItems_congr (DictEqv_keys_perm hd) (DictEqv_keys_perm he)]
  exact cdGo_congr_dictLevel hd he _ path

theorem relBlock_congr {r₁ r₂ s₁ s₂ : Rels} (hr : RelsEqv r₁ r₂) (hs : RelsEqv s₁ s₂)
    (rel : String) : relBlock r₁ s₁ rel = relBlock r₂ s₂ rel := by
  unfold relBlock
  have hA := hr.2.2 rel
  have hB := hs.2.2 rel
  rw [pyEqOptDict_congr hA hB]
  by_cases ht : pyEqOptDict (dictGet r₂ rel) (dictGet s₂ rel) = true
  · rw [if_pos ht, if_pos ht]
  · rw [if_neg ht, if_neg ht]
    congr 1
    cases hg₁ : dictGet r₁ rel with
    | none =>
      rw [hg₁] at hA
      cases hg₂ : dictGet r₂ rel with
      | some _ =>
        rw [hg₂] at hA
        exact ((hA : False).elim)
      | none => rfl
    | some d₁ =>
      rw [hg₁] at hA
      cases hg₂ : dictGet r₂ rel with
      | none =>
        rw [hg₂] at hA
        exact ((hA : False).elim)
      | some d₂ =>
        rw [hg₂] at hA
        cases hh₁ : dictGet s₁ rel with
        | none =>
          rw [hh₁] at hB
          cases hh₂ : dictGet s₂ rel with
          | some _ =>
            rw [hh₂] at hB
            exact ((hB : False).elim)
          | none => rfl
        | some e₁ =>
          rw [hh₁] at hB
          cases hh₂ : dictGet s₂ rel with
          | none =>
            rw [hh₂] at hB
            exact ((hB : False).elim)
          | some e₂ =>
            rw [hh₂] at hB
            exact compare_dicts_congr (hA : DictEqv d₁ d₂) (hB : DictEqv e₁ e₂) []

theorem consideredRels_congr {a₁ a₂ b₁ b₂ : Info} (ha : InfoEqv a₁ a₂) (hb : InfoEqv b₁ b₂)
    (schemas : List String) (ign : Bool) :
    consideredRels a₁ b₁ schemas ign = consideredRels a₂ b₂ schemas ign := by
  have hka : (keysOf a₁.rels).Perm (keysOf a₂.rels) :=
    keysOf_perm_of_isSome_eq ha.2.2.1.1 ha.2.2.2.1.1
      (fun t => OptDictEqv_isSome_eq (ha.2.2.2.2 t))
  have hkb : (keysOf b₁.rels).Perm (keysOf b₂.rels) :=
    keysOf_perm_of_isSome_eq hb.2.2.1.1 hb.2.2.2.1.1
      (fun t => OptDictEqv_isSome_eq (hb.2.2.2.2 t))
  have h0 := dedupFirst_perm_of_perm (hka.append hkb)
  simp only [consideredRels, ha.2.1, hb.2.1]
  apply pySorted_eq_of_perm
  cases ign with
  | false =>
    rw [if_neg Bool.false_ne_true, if_neg Bool.false_ne_true]
    by_cases hse : schemas.isEmpty = true
    · rw [if_pos hse, if_pos hse]
      exact h0
    · rw [if_neg hse, if_neg hse]
      exact h0.filter _
  | true =>
    rw [if_pos rfl, if_pos rfl]
    by_cases hse : schemas.isEmpty = true
    · rw [if_pos hse, if_pos hse]
      exact h0.filter _
    · rw [if_neg hse, if_neg hse]
      exact (h0.filter _).filter _

theorem compare_schema_congr {a₁ a₂ b₁ b₂ : Info} (ha : InfoEqv a₁ a₂) (hb : InfoEqv b₁ b₂)
    (schemas : List String) (ign : Bool) :
    compare_schema a₁ b₁ schemas ign = compare_schema a₂ b₂ schemas ign := by
  unfold compare_schema
  rw [ha.1, hb.1, consideredRels_congr ha hb schemas ign]
  congr 2
  congr 1
  apply List.map_congr_left
  intro rel _
  exact relBlock_congr ha.2.2 hb.2.2 rel

/-! ### Reflexivity of the diff -/

theorem pyEq_bag_refl {b : List (String × Value)} (hb : WFBag b) :
    pyEq (.dict b) (.dict b) = true :=
  (pyEq_bag_iff hb hb).mpr (fun _ => rfl)

theorem pyEq_dict_refl {d : List (String × Value)} (hd : WFDict d) :
    pyEq (.dict d) (.dict d) = true := by
  rw [pyEq_dict_iff, pyEqEntries_iff]
  refine ⟨rfl, ?_⟩
  rintro ⟨k, v⟩ hkv
  have hg := dictGet_eq_some_of_mem hd.1 hkv
  obtain ⟨bag, rfl, hwb⟩ := hd.2 _ hkv
  exact ⟨_, hg, pyEq_bag_refl hwb⟩

theorem pyEqOptDict_refl {r : Rels} (h : WFRels r) (rel : String) :
    pyEqOptDict (dictGet r rel) (dictGet r rel) = true := by
  cases hg : dictGet r rel with
  | none => rfl
  | some d =>
    have hwf : WFDict d := h.2 _ (mem_of_dictGet_eq_some hg)
    exact pyEq_dict_refl hwf

theorem relBlock_refl {r : Rels} (h : WFRels r) (rel : String) : relBlock r r rel = [] := by
  unfold relBlock
  rw [if_pos (pyEqOptDict_refl h rel)]

theorem compare_schema_refl {i : Info} (h : WFInfo i) (schemas : List String) (ign : Bool) :
    compare_schema i i schemas ign = ["--- " ++ i.dsn, "+++ " ++ i.dsn] := by
  unfold compare_schema
  suffices hs : (List.map (relBlock i.rels i.rels) (consideredRels i i schemas ign)).flatten = [] by
    rw [hs]
  rw [List.flatten_eq_nil_iff]
  intro l hl
  obtain ⟨rel, _, rfl⟩ := List.mem_map.mp hl
  exact relBlock_refl h rel

/-! ### Character-level facts about the rendered lines -/

theorem pyStartswith_append {p s pre : String} (h : pyStartswith p pre = true) :
    pyStartswith (p ++ s) pre = true := by
  unfold pyStartswith at h ⊢
  rw [List.isPrefixOf_iff_prefix] at h ⊢
  rw [String.data_append]
  exact h.trans (List.prefix_append _ _)

theorem pyStartswith_atat_head {s : String} {c : Char} {cs : List Char}
    (h : s.data = c :: cs) (hc : ((Char.ofNat 64 == c) = false)) :
    pyStartswith s "@@" = false := by
  unfold pyStartswith
  rw [h]
  show (("@@".data).isPrefixOf (c :: cs)) = false
  have hd : "@@".data = [Char.ofNat 64, Char.ofNat 64] := by decide
  rw [hd, List.isPrefixOf, hc, Bool.false_and]

theorem pyStartswith_atat_marker (rel : String) :
    pyStartswith ("@@ Relation " ++ rel) "@@" = true :=
  pyStartswith_append (by decide)

theorem pyStartswith_dash (t : String) : pyStartswith ("-" ++ t) "@@" = false := by
  refine @pyStartswith_atat_head _ (Char.ofNat 45) t.data ?_ (by decide)
  rw [String.data_append, show "-".data = [Char.ofNat 45] from by decide]
  rfl

theorem pyStartswith_plus (t : String) : pyStartswith ("+" ++ t) "@@" = false := by
  refine @pyStartswith_atat_head _ (Char.ofNat 43) t.data ?_ (by decide)
  rw [String.data_append, show "+".data = [Char.ofNat 43] from by decide]
  rfl

theorem pyStartswith_hdrA (t : String) : pyStartswith ("--- " ++ t) "@@" = false := by
  refine @pyStartswith_atat_head _ (Char.ofNat 45)
    ([Char.ofNat 45, Char.ofNat 45, Char.ofNat 32] ++ t.data) ?_ (by decide)
  rw [String.data_append,
    show "--- ".data = [Char.ofNat 45, Char.ofNat 45, Char.ofNat 45, Char.ofNat 32] from by decide]
  rfl

theorem pyStartswith_hdrB (t : String) : pyStartswith ("+++ " ++ t) "@@" = false := by
  refine @pyStartswith_atat_head _ (Char.ofNat 43)
    ([Char.ofNat 43, Char.ofNat 43, Char.ofNat 32] ++ t.data) ?_ (by decide)
  rw [String.data_append,
    show "+++ ".data = [Char.ofNat 43, Char.ofNat 43, Char.ofNat 43, Char.ofNat 32] from by decide]
  rfl

theorem oneSidedLine_head (sign d : String) (v : Value) :
    ∃ t, oneSidedLine sign d v = sign ++ t := by
  cases v with
  | scalar s => exact ⟨d, rfl⟩
  | dict bag =>
    cases bag with
    | nil => exact ⟨d, rfl⟩
    | cons kv rest =>
      cases rest with
      | nil =>
        obtain ⟨k, w⟩ := kv
        exact ⟨d ++ (" " ++ (k ++ (" " ++ pyStr w))), by
          simp [oneSidedLine, String.append_assoc]⟩
      | cons _ _ => exact ⟨d, rfl⟩

theorem append4_head (a b c d : String) : ((a ++ b) ++ c) ++ d = a ++ (b ++ (c ++ d)) := by
  simp [String.append_assoc]

theorem sizeOf_list_pos {α : Type} [SizeOf α] (l : List α) : 0 < sizeOf l := by
  cases l with
  | nil => simp
  | cons x xs =>
    simp only [List.cons.sizeOf_spec]
    omega

/-- Every line the diff loop yields is a Removed or an Added line: it starts
with a minus or a plus sign. -/
theorem cdGo_line_head : ∀ (n : Nat) (a b : List (String × Value)),
    sizeOf a + sizeOf b ≤ n →
    ∀ (items path : List String) (l : String), l ∈ cdGo items a b path →
      (∃ t, l = "-" ++ t) ∨ ∃ t, l = "+" ++ t := by
  intro n
  induction n using Nat.strong_induction_on with
  | _ n IH =>
    intro a b hn items
    induction items with
    | nil =>
      intro path l hl
      rw [cdGo_nil] at hl
      cases hl
    | cons item rest ihr =>
      intro path l hl
      cases hga : dictGet a item with
      | none =>
        cases hgb : dictGet b item with
        | none =>
          rw [cdGo_cons_noneNone hga hgb] at hl
          exact ihr path l hl
        | some bv =>
          rw [cdGo_cons_noneSome hga hgb] at hl
          rcases List.mem_cons.mp hl with rfl | hl
          · obtain ⟨t, ht⟩ := oneSidedLine_head "+" (String.intercalate " " (path ++ [item])) bv
            exact Or.inr ⟨t, ht⟩
          · exact ihr path l hl
      | some av =>
        cases hgb : dictGet b item with
        | none =>
          rw [cdGo_cons_someNone hga hgb] at hl
          rcases List.mem_cons.mp hl with rfl | hl
          · obtain ⟨t, ht⟩ := oneSidedLine_head "-" (String.intercalate " " (path ++ [item])) av
            exact Or.inl ⟨t, ht⟩
          · exact ihr path l hl
        | some bv =>
          cases hpq : pyEq av bv with
          | true =>
            rw [cdGo_cons_someSome_eq hga hgb hpq] at hl
            exact ihr path l hl
          | false =>
            cases hav : av with
            | dict d1 =>
              cases hbv : bv with
              | dict d2 =>
                rw [hav] at hga hpq
                rw [hbv] at hgb hpq
                rw [cdGo_cons_someSome_dicts hga hgb hpq] at hl
                rcases List.mem_append.mp hl with hl | hl
                · have hlt : sizeOf d1 + sizeOf d2 < n := by
                    have h1 := dictGet_sizeOf hga
                    have h2 := dictGet_sizeOf hgb
                    simp only [Value.dict.sizeOf_spec] at h1 h2
                    omega
                  exact IH _ hlt d1 d2 (Nat.le_refl _) _ _ l hl
                · exact ihr path l hl
              | scalar t =>
                rw [hav] at hga hpq
                rw [hbv] at hgb hpq
                rw [cdGo_cons_someSome_mixed hga hgb hpq
                  (fun d₁ d₂ h1 h2 => by cases h2)] at hl
                rcases List.mem_cons.mp hl with rfl | hl
                · exact Or.inl ⟨_, append4_head _ _ _ _⟩
                · rcases List.mem_cons.mp hl with rfl | hl
                  · exact Or.inr ⟨_, append4_head _ _ _ _⟩
                  · exact ihr path l hl
            | scalar s =>
              rw [hav] at hga hpq
              rw [cdGo_cons_someSome_mixed hga hgb hpq
                (fun d₁ d₂ h1 h2 => by cases h1)] at hl
              rcases List.mem_cons.mp hl with rfl | hl
              · exact Or.inl ⟨_, append4_head _ _ _ _⟩
              · rcases List.mem_cons.mp hl with rfl | hl
                · exact Or.inr ⟨_, append4_head _ _ _ _⟩
                · exact ihr path l hl

/-! ### Counting the `@@` markers -/


theorem pyStartswith_plusRelation (x : String) :
    pyStartswith ("+Relation " ++ x) "@@" = false := by
  refine @pyStartswith_atat_head _ (Char.ofNat 43) ("Relation ".data ++ x.data)
    ?_ (by decide)
  rw [String.data_append, show "+Relation ".data = Char.ofNat 43 :: "Relation ".data from by decide]
  rfl

theorem compare_dicts_not_atat {a b : List (String × Value)} {path : List String} {l : String}
    (hl : l ∈ compare_dicts a b path) : pyStartswith l "@@" = false := by
  rcases cdGo_line_head (sizeOf a + sizeOf b) a b (Nat.le_refl _) _ path l hl with ⟨t, rfl⟩ | ⟨t, rfl⟩
  · exact pyStartswith_dash t
  · exact pyStartswith_plus t

theorem relBlock_atat_count (aR bR : Rels) (rel : String) :
    ((relBlock aR bR rel).filter (fun l => pyStartswith l "@@")).length =
      if pyEqOptDict (dictGet aR rel) (dictGet bR rel) = true then 0 else 1 := by
  by_cases ht : pyEqOptDict (dictGet aR rel) (dictGet bR rel) = true
  · rw [if_pos ht]
    unfold relBlock
    rw [if_pos ht]
    rfl
  · rw [if_neg ht]
    unfold relBlock
    rw [if_neg ht]
    cases hg₁ : dictGet aR rel with
    | none => simp [pyStartswith_atat_marker, pyStartswith_plusRelation]
    | some da =>
      cases hg₂ : dictGet bR rel with
      | none => simp [pyStartswith_atat_marker, pyStartswith_plusRelation]
      | some db =>
        simp only [List.filter_cons]
        rw [if_pos (by simpa using pyStartswith_atat_marker rel)]
        rw [show List.filter (fun l => pyStartswith l "@@") (compare_dicts da db []) = [] from ?_]
        · rfl
        · rw [List.filter_eq_nil_iff]
          intro l hl
          simp [compare_dicts_not_atat hl]

theorem count_atat_blocks (aR bR : Rels) : ∀ rels : List String,
    (((rels.map (relBlock aR bR)).flatten).filter (fun l => pyStartswith l "@@")).length =
      (rels.filter (fun rel => !(pyEqOptDict (dictGet aR rel) (dictGet bR rel)))).length := by
  intro rels
  induction rels with
  | nil => rfl
  | cons rel rest ih =>
    rw [List.map_cons, List.flatten_cons, List.filter_append, List.length_append, ih,
      List.filter_cons]
    have hcount := relBlock_atat_count aR bR rel
    by_cases ht : pyEqOptDict (dictGet aR rel) (dictGet bR rel) = true
    · rw [if_pos ht] at hcount
      rw [hcount, if_neg (by simp [ht])]
      omega
    · rw [if_neg ht] at hcount
      rw [hcount, if_pos (by simp_all)]
      simp only [List.length_cons]
      omega

theorem compare_count_eq (a b : Info) (schemas : List String) (ign : Bool) :
    compare_count a b schemas ign = (differingRels a b schemas ign).length := by
  unfold compare_count compare_schema differingRels
  rw [List.filter_cons, if_neg (by simp [pyStartswith_hdrA]), List.filter_cons,
    if_neg (by simp [pyStartswith_hdrB])]
  exact count_atat_blocks _ _ _

/-! ### Membership of records in the diff output -/

theorem cdGo_cons_suffix (item : String) (rest : List String) (a b : List (String × Value))
    (path : List String) :
    ∃ X, cdGo (item :: rest) a b path = X ++ cdGo rest a b path := by
  cases hga : dictGet a item with
  | none =>
    cases hgb : dictGet b item with
    | none => exact ⟨[], by rw [cdGo_cons_noneNone hga hgb]; rfl⟩
    | some bv =>
      exact ⟨[oneSidedLine "+" (String.intercalate " " (path ++ [item])) bv],
        by rw [cdGo_cons_noneSome hga hgb]; rfl⟩
  | some av =>
    cases hgb : dictGet b item with
    | none =>
      exact ⟨[oneSidedLine "-" (String.intercalate " " (path ++ [item])) av],
        by rw [cdGo_cons_someNone hga hgb]; rfl⟩
    | some bv =>
      cases hpq : pyEq av bv with
      | true => exact ⟨[], by rw [cdGo_cons_someSome_eq hga hgb hpq]; rfl⟩
      | false =>
        cases hav : av with
        | dict d1 =>
          cases hbv : bv with
          | dict d2 =>
            rw [hav] at hga hpq
            rw [hbv] at hgb hpq
            exact ⟨cdGo (cdItems d1 d2) d1 d2 (path ++ [item]),
              by rw [cdGo_cons_someSome_dicts hga hgb hpq]⟩
          | scalar t =>
            rw [hav] at hga hpq
            rw [hbv] at hgb hpq
            exact ⟨[("-" ++ String.intercalate " " (path ++ [item]) ++ " " ++ pyStr (.dict d1)),
              ("+" ++ String.intercalate " " (path ++ [item]) ++ " " ++ pyStr (.scalar t))],
              by rw [cdGo_cons_someSome_mixed hga hgb hpq (fun d₁ d₂ h1 h2 => by cases h2)]; rfl⟩
        | scalar s =>
          rw [hav] at hga hpq
          exact ⟨[("-" ++ String.intercalate " " (path ++ [item]) ++ " " ++ pyStr (.scalar s)),
            ("+" ++ String.intercalate " " (path ++ [item]) ++ " " ++ pyStr bv)],
            by rw [cdGo_cons_someSome_mixed hga hgb hpq (fun d₁ d₂ h1 h2 => by cases h1)]; rfl⟩

theorem cdGo_mem_of_mem_rest {item : String} {rest : List String} {a b : List (String × Value)}
    {path : List String} {l : String} (h : l ∈ cdGo rest a b path) :
    l ∈ cdGo (item :: rest) a b path := by
  obtain ⟨X, hX⟩ := cdGo_cons_suffix item rest a b path
  rw [hX]
  exact List.mem_append_right _ h

theorem cdGo_removed_mem : ∀ {items : List String} {a b : List (String × Value)}
    {k : String} {av : Value}, k ∈ items → dictGet a k = some av → dictGet b k = none →
    ∀ path, oneSidedLine "-" (String.intercalate " " (path ++ [k])) av ∈ cdGo items a b path := by
  intro items
  induction items with
  | nil =>
    intro a b k av hk _ _ _
    cases hk
  | cons item rest ih =>
    intro a b k av hk hga hgb path
    by_cases hik : item = k
    · subst hik
      rw [cdGo_cons_someNone hga hgb]
      exact List.mem_cons_self _ _
    · have hk' : k ∈ rest := by
        rcases List.mem_cons.mp hk with rfl | h
        · exact absurd rfl hik
        · exact h
      exact cdGo_mem_of_mem_rest (ih hk' hga hgb path)

theorem cdGo_added_mem : ∀ {items : List String} {a b : List (String × Value)}
    {k : String} {bv : Value}, k ∈ items → dictGet a k = none → dictGet b k = some bv →
    ∀ path, oneSidedLine "+" (String.intercalate " " (path ++ [k])) bv ∈ cdGo items a b path := by
  intro items
  induction items with
  | nil =>
    intro a b k bv hk _ _ _
    cases hk
  | cons item rest ih =>
    intro a b k bv hk hga hgb path
    by_cases hik : item = k
    · subst hik
      rw [cdGo_cons_noneSome hga hgb]
      exact List.mem_cons_self _ _
    · have hk' : k ∈ rest := by
        rcases List.mem_cons.mp hk with rfl | h
        · exact absurd rfl hik
        · exact h
      exact cdGo_mem_of_mem_rest (ih hk' hga hgb path)

theorem cdGo_changed_mem : ∀ {items : List String} {a b : List (String × Value)}
    {k : String} {av bv : Value}, k ∈ items →
    dictGet a k = some av → dictGet b k = some bv → pyEq av bv = false →
    (∀ d1 d2 : List (String × Value), av = .dict d1 → bv = .dict d2 → False) →
    ∀ path, ∃ pre post, cdGo items a b path =
      pre ++ ("-" ++ String.intercalate " " (path ++ [k]) ++ " " ++ pyStr av) ::
        ("+" ++ String.intercalate " " (path ++ [k]) ++ " " ++ pyStr bv) :: post := by
  intro items
  induction items with
  | nil =>
    intro a b k av bv hk _ _ _ _ _
    cases hk
  | cons item rest ih =>
    intro a b k av bv hk hga hgb hne hmix path
    by_cases hik : item = k
    · subst hik
      rw [cdGo_cons_someSome_mixed hga hgb hne hmix]
      exact ⟨[], cdGo rest a b path, rfl⟩
    · have hk' : k ∈ rest := by
        rcases List.mem_cons.mp hk with rfl | h
        · exact absurd rfl hik
        · exact h
      obtain ⟨pre, post, hpp⟩ := ih hk' hga hgb hne hmix path
      obtain ⟨X, hX⟩ := cdGo_cons_suffix item rest a b path
      exact ⟨X ++ pre, post, by rw [hX, hpp, List.append_assoc]⟩

theorem cdGo_dictsArm_mem : ∀ {items : List String} {a b : List (String × Value)}
    {k : String} {d1 d2 : List (String × Value)}, k ∈ items →
    dictGet a k = some (.dict d1) → dictGet b k = some (.dict d2) →
    pyEq (.dict d1) (.dict d2) = false →
    ∀ {path l}, l ∈ cdGo (cdItems d1 d2) d1 d2 (path ++ [k]) → l ∈ cdGo items a b path := by
  intro items
  induction items with
  | nil =>
    intro a b k d1 d2 hk _ _ _ _ _ _
    cases hk
  | cons item rest ih =>
    intro a b k d1 d2 hk hga hgb hne path l hl
    by_cases hik : item = k
    · subst hik
      rw [cdGo_cons_someSome_dicts hga hgb hne]
      exact List.mem_append_left _ hl
    · have hk' : k ∈ rest := by
        rcases List.mem_cons.mp hk with rfl | h
        · exact absurd rfl hik
        · exact h
      exact cdGo_mem_of_mem_rest (ih hk' hga hgb hne hl)

theorem mem_cdItems_left {a b : List (String × Value)} {k : String} (hk : k ∈ keysOf a) :
    k ∈ cdItems a b := by
  unfold cdItems
  rw [mem_dedupFirst]
  exact ⟨List.mem_append_left _ (mem_pySorted.mpr hk), by simp⟩

theorem mem_cdItems_right {a b : List (String × Value)} {k : String} (hk : k ∈ keysOf b) :
    k ∈ cdItems a b := by
  unfold cdItems
  rw [mem_dedupFirst]
  exact ⟨List.mem_append_right _ (mem_pySorted.mpr hk), by simp⟩

/-! ### A differing pair of dicts always yields at least one record -/

theorem pyEq_dict_false_cases {d e : List (String × Value)}
    (hd : (keysOf d).Nodup) (he : (keysOf e).Nodup)
    (hne : pyEq (.dict d) (.dict e) = false) :
    (∃ k v, dictGet d k = some v ∧ dictGet e k = none) ∨
    (∃ k v, dictGet d k = none ∧ dictGet e k = some v) ∨
    (∃ k v w, dictGet d k = some v ∧ dictGet e k = some w ∧ pyEq v w = false) := by
  by_contra hcon
  push_neg at hcon
  obtain ⟨h1, h2, h3⟩ := hcon
  have key : ∀ k, (dictGet d k = none ∧ dictGet e k = none) ∨
      ∃ v w, dictGet d k = some v ∧ dictGet e k = some w ∧ pyEq v w = true := by
    intro k
    cases hgd : dictGet d k with
    | none =>
      cases hge : dictGet e k with
      | none => exact Or.inl ⟨rfl, rfl⟩
      | some w => exact absurd hge (h2 k w hgd)
    | some v =>
      cases hge : dictGet e k with
      | none => exact absurd hge (h1 k v hgd)
      | some w =>
        refine Or.inr ⟨v, w, rfl, rfl, ?_⟩
        cases hpq : pyEq v w with
        | true => rfl
        | false => exact absurd hpq (h3 k v w hgd hge)
    
  have hperm : (keysOf d).Perm (keysOf e) := by
    apply keysOf_perm_of_isSome_eq hd he
    intro k
    rcases key k with ⟨hgd, hge⟩ | ⟨v, w, hgd, hge, _⟩ <;> rw [hgd, hge] <;> rfl
  have : pyEq (.dict d) (.dict e) = true := by
    rw [pyEq_dict_iff, pyEqEntries_iff]
    constructor
    · rw [← keysOf_length, ← keysOf_length, hperm.length_eq]
    · rintro ⟨k, v⟩ hkv
      have hgd := dictGet_eq_some_of_mem hd hkv
      rcases key k with ⟨hgd', _⟩ | ⟨v', w, hgd', hge, hpq⟩
      · rw [hgd] at hgd'
        cases hgd'
      · rw [hgd] at hgd'
        cases hgd'
        exact ⟨w, hge, hpq⟩
  rw [this] at hne
  cases hne

theorem bag_diff_mem {b c : List (String × Value)} (hwb : WFBag b) (hwc : WFBag c)
    (hne : pyEq (.dict b) (.dict c) = false) (path : List String) :
    ∃ l, l ∈ cdGo (cdItems b c) b c path := by
  rcases pyEq_dict_false_cases hwb.1 hwc.1 hne with
    ⟨k, v, hgd, hge⟩ | ⟨k, v, hgd, hge⟩ | ⟨k, v, w, hgd, hge, hpq⟩
  · exact ⟨_, cdGo_removed_mem (mem_cdItems_left (mem_keysOf_iff_get.mpr ⟨v, hgd⟩)) hgd hge path⟩
  · exact ⟨_, cdGo_added_mem (mem_cdItems_right (mem_keysOf_iff_get.mpr ⟨v, hge⟩)) hgd hge path⟩
  · obtain ⟨s, rfl⟩ := WFBag_get hwb hgd
    obtain ⟨pre, post, heq⟩ := cdGo_changed_mem
      (mem_cdItems_left (mem_keysOf_iff_get.mpr ⟨_, hgd⟩)) hgd hge hpq
      (fun d1 d2 h1 _ => by cases h1) path
    exact ⟨_, by rw [heq]; exact List.mem_append_right _ (List.mem_cons_self _ _)⟩

theorem compare_dicts_mem_of_ne {da db : List (String × Value)} (hwa : WFDict da)
    (hwb : WFDict db) (hne : pyEq (.dict da) (.dict db) = false) (path : List String) :
    ∃ l, l ∈ cdGo (cdItems da db) da db path := by
  rcases pyEq_dict_false_cases hwa.1 hwb.1 hne with
    ⟨k, v, hgd, hge⟩ | ⟨k, v, hgd, hge⟩ | ⟨k, v, w, hgd, hge, hpq⟩
  · exact ⟨_, cdGo_removed_mem (mem_cdItems_left (mem_keysOf_iff_get.mpr ⟨v, hgd⟩)) hgd hge path⟩
  · exact ⟨_, cdGo_added_mem (mem_cdItems_right (mem_keysOf_iff_get.mpr ⟨v, hge⟩)) hgd hge path⟩
  · obtain ⟨bag1, rfl, hwb1⟩ := WFDict_get hwa hgd
    obtain ⟨bag2, rfl, hwb2⟩ := WFDict_get hwb hge
    obtain ⟨l, hl⟩ := bag_diff_mem hwb1 hwb2 hpq (path ++ [k])
    exact ⟨l, cdGo_dictsArm_mem (mem_cdItems_left (mem_keysOf_iff_get.mpr ⟨_, hgd⟩))
      hgd hge hpq hl⟩

theorem changeRecords_eq (a b : Info) (schemas : List String) (ign : Bool) :
    changeRecords a b schemas ign =
      (((consideredRels a b schemas ign).map (relBlock a.rels b.rels)).flatten).filter
        (fun l => !(pyStartswith l "@@")) := by
  unfold changeRecords compare_schema
  rfl

theorem count_zero_iff_records_nil {a b : Info} (hwa : WFInfo a) (hwb : WFInfo b)
    (schemas : List String) (ign : Bool) :
    compare_count a b schemas ign = 0 ↔ changeRecords a b schemas ign = [] := by
  rw [compare_count_eq, changeRecords_eq]
  constructor
  · intro h0
    have hall : ∀ rel ∈ consideredRels a b schemas ign,
        pyEqOptDict (dictGet a.rels rel) (dictGet b.rels rel) = true := by
      intro rel hrel
      by_contra hcon
      have hmem : rel ∈ differingRels a b schemas ign := by
        unfold differingRels
        rw [List.mem_filter]
        exact ⟨hrel, by simp_all⟩
      rw [List.length_eq_zero] at h0
      rw [h0] at hmem
      cases hmem
    have hnil : ((consideredRels a b schemas ign).map (relBlock a.rels b.rels)).flatten = [] := by
      rw [List.flatten_eq_nil_iff]
      intro l hl
      obtain ⟨rel, hrel, rfl⟩ := List.mem_map.mp hl
      unfold relBlock
      rw [if_pos (hall rel hrel)]
    rw [hnil]
    rfl
  · intro hrec
    rw [List.length_eq_zero]
    unfold differingRels
    rw [List.filter_eq_nil_iff]
    intro rel hrel
    simp only [Bool.not_eq_true', Bool.not_eq_true]
    by_contra hcon
    have hfalse : pyEqOptDict (dictGet a.rels rel) (dictGet b.rels rel) = false := by
      cases h : pyEqOptDict (dictGet a.rels rel) (dictGet b.rels rel) with
      | false => rfl
      | true => exact absurd h (by simp_all)
    have hrecmem : ∀ l, l ∈ relBlock a.rels b.rels rel → pyStartswith l "@@" = false →
        False := by
      intro l hlb hlh
      have hblockmem : relBlock a.rels b.rels rel ∈
          (consideredRels a b schemas ign).map (relBlock a.rels b.rels) :=
        List.mem_map_of_mem _ hrel
      have : l ∈ (((consideredRels a b schemas ign).map (relBlock a.rels b.rels)).flatten).filter
          (fun l => !(pyStartswith l "@@")) := by
        rw [List.mem_filter]
        exact ⟨List.mem_flatten.mpr ⟨_, hblockmem, hlb⟩, by simp [hlh]⟩
      rw [hrec] at this
      cases this
    cases hg₁ : dictGet a.rels rel with
    | none =>
      cases hg₂ : dictGet b.rels rel with
      | none =>
        rw [hg₁, hg₂] at hfalse
        cases hfalse
      | some db =>
        have hblock : relBlock a.rels b.rels rel =
            ("@@ Relation " ++ rel) :: ["+Relation " ++ pyRepr rel] := by
          simp [relBlock, hg₁, hg₂, pyEqOptDict, pyEqOpt]
        exact hrecmem _ (by rw [hblock]; exact List.mem_cons_of_mem _ (List.mem_cons_self _ _))
          (pyStartswith_plusRelation _)
    | some da =>
      cases hg₂ : dictGet b.rels rel with
      | none =>
        have hblock : relBlock a.rels b.rels rel =
            ("@@ Relation " ++ rel) :: ["+Relation " ++ pyRepr rel] := by
          simp [relBlock, hg₁, hg₂, pyEqOptDict, pyEqOpt]
        exact hrecmem _ (by rw [hblock]; exact List.mem_cons_of_mem _ (List.mem_cons_self _ _))
          (pyStartswith_plusRelation _)
      | some db =>
        have hpq : pyEq (.dict da) (.dict db) = false := by
          rw [hg₁, hg₂] at hfalse
          exact hfalse
        have hblock : relBlock a.rels b.rels rel =
            ("@@ Relation " ++ rel) :: compare_dicts da db [] := by
          simp [relBlock, hg₁, hg₂, pyEqOptDict, pyEqOpt, hpq]
        have hwda : WFDict da := hwa.2 _ (mem_of_dictGet_eq_some hg₁)
        have hwdb : WFDict db := hwb.2 _ (mem_of_dictGet_eq_some hg₂)
        obtain ⟨l, hl⟩ := compare_dicts_mem_of_ne hwda hwdb hpq []
        exact hrecmem l (by rw [hblock]; exact List.mem_cons_of_mem _ hl)
          (compare_dicts_not_atat hl)

/-! ### The gathered snapshot is well formed -/

theorem foldl_preserve {α β : Type} {P : α → Prop} {f : α → β → α}
    (hf : ∀ r x, P r → P (f r x)) :
    ∀ (l : List β) (r : α), P r → P (l.foldl f r) := by
  intro l
  induction l with
  | nil => intro r h; exact h
  | cons x xs ih =>
    intro r h
    rw [List.foldl_cons]
    exact ih _ (hf r x h)

theorem foldl_preserve_mem {α β : Type} {P : α → Prop} {f : α → β → α} :
    ∀ (l : List β), (∀ x ∈ l, ∀ r, P r → P (f r x)) → ∀ r, P r → P (l.foldl f r) := by
  intro l
  induction l with
  | nil => intro _ r h; exact h
  | cons x xs ih =>
    intro hf r h
    rw [List.foldl_cons]
    exact ih (fun y hy => hf y (List.mem_cons_of_mem _ hy)) _
      (hf x (List.mem_cons_self _ _) r h)

theorem dictSet_eq_dictModify {α : Type} (key : String) (v : α) (d : List (String × α)) :
    dictSet key v d = dictModify key (fun _ => v) v d := by
  induction d with
  | nil => rfl
  | cons kv rest ih =>
    obtain ⟨k, w⟩ := kv
    by_cases hk : k = key
    · simp [dictSet, dictModify, hk]
    · simp [dictSet, dictModify, hk, ih]

theorem keysOf_dictModify {α : Type} (key : String) (f : α → α) (dflt : α)
    (d : List (String × α)) :
    keysOf (dictModify key f dflt d) =
      if key ∈ keysOf d then keysOf d else keysOf d ++ [key] := by
  induction d with
  | nil => simp [dictModify, keysOf]
  | cons kv rest ih =>
    obtain ⟨k, w⟩ := kv
    by_cases hk : k = key
    · subst hk
      rw [show dictModify k f dflt ((k, w) :: rest) = (k, f w) :: rest from by simp [dictModify]]
      rw [keysOf_cons, keysOf_cons, if_pos (List.mem_cons_self _ _)]
    · rw [show dictModify key f dflt ((k, w) :: rest) = (k, w) :: dictModify key f dflt rest from
        by simp [dictModify, hk]]
      rw [keysOf_cons, keysOf_cons, ih]
      by_cases hmem : key ∈ keysOf rest
      · rw [if_pos hmem, if_pos (List.mem_cons_of_mem _ hmem)]
      · rw [if_neg hmem, if_neg ?_, List.cons_append]
        rw [List.mem_cons]
        rintro (h | h)
        · exact hk h.symm
        · exact hmem h

theorem nodup_keysOf_dictModify {α : Type} {d : List (String × α)} (h : (keysOf d).Nodup)
    (key : String) (f : α → α) (dflt : α) : (keysOf (dictModify key f dflt d)).Nodup := by
  rw [keysOf_dictModify]
  by_cases hmem : key ∈ keysOf d
  · rw [if_pos hmem]
    exact h
  · rw [if_neg hmem]
    simp [List.nodup_append, h, hmem]

theorem mem_dictModify {α : Type} {key : String} {f : α → α} {dflt : α}
    {d : List (String × α)} {kv : String × α} (h : kv ∈ dictModify key f dflt d) :
    kv ∈ d ∨ kv.1 = key ∧ (kv.2 = f dflt ∨ ∃ w, (key, w) ∈ d ∧ kv.2 = f w) := by
  induction d with
  | nil =>
    simp [dictModify] at h
    exact Or.inr ⟨by rw [h], Or.inl (by rw [h])⟩
  | cons kv' rest ih =>
    obtain ⟨k, w⟩ := kv'
    by_cases hk : k = key
    · subst hk
      rw [show dictModify k f dflt ((k, w) :: rest) = (k, f w) :: rest from
        by simp [dictModify]] at h
      rcases List.mem_cons.mp h with rfl | h
      · exact Or.inr ⟨rfl, Or.inr ⟨w, List.mem_cons_self _ _, rfl⟩⟩
      · exact Or.inl (List.mem_cons_of_mem _ h)
    · rw [show dictModify key f dflt ((k, w) :: rest) = (k, w) :: dictModify key f dflt rest from
        by simp [dictModify, hk]] at h
      rcases List.mem_cons.mp h with rfl | h
      · exact Or.inl (List.mem_cons_self _ _)
      · rcases ih h with h' | ⟨h1, h2⟩
        · exact Or.inl (List.mem_cons_of_mem _ h')
        · refine Or.inr ⟨h1, ?_⟩
          rcases h2 with h2 | ⟨w', hw', h3⟩
          · exact Or.inl h2
          · exact Or.inr ⟨w', List.mem_cons_of_mem _ hw', h3⟩

theorem WFBag_nil : WFBag [] :=
  ⟨List.nodup_nil, fun _ h => absurd h (List.not_mem_nil _)⟩

theorem WFDict_nil : WFDict [] :=
  ⟨List.nodup_nil, fun _ h => absurd h (List.not_mem_nil _)⟩

theorem WFRels_nil : WFRels [] :=
  ⟨List.nodup_nil, fun _ h => absurd h (List.not_mem_nil _)⟩

theorem WFBag_dictSet {bag : List (String × Value)} (h : WFBag bag) (p val : String) :
    WFBag (dictSet p (.scalar val) bag) := by
  rw [dictSet_eq_dictModify]
  refine ⟨nodup_keysOf_dictModify h.1 _ _ _, ?_⟩
  intro kv hkv
  rcases mem_dictModify hkv with h' | ⟨_, h2⟩
  · exact h.2 _ h'
  · rcases h2 with h2 | ⟨w, _, h2⟩ <;> exact ⟨val, h2⟩

theorem WFDict_addProp {d : List (String × Value)} (h : WFDict d) (key prop val : String) :
    WFDict (dictModify key
      (fun v => match v with
        | .dict bag => .dict (dictSet prop (.scalar val) bag)
        | other => other) (.dict []) d) := by
  refine ⟨nodup_keysOf_dictModify h.1 _ _ _, ?_⟩
  intro kv hkv
  rcases mem_dictModify hkv with h' | ⟨_, h2⟩
  · exact h.2 _ h'
  · rcases h2 with h2 | ⟨w, hw, h2⟩
    · exact ⟨dictSet prop (.scalar val) [], h2.trans rfl, WFBag_dictSet WFBag_nil _ _⟩
    · obtain ⟨bag, rfl, hwbag⟩ := h.2 _ hw
      exact ⟨dictSet prop (.scalar val) bag, h2.trans rfl, WFBag_dictSet hwbag _ _⟩

theorem WFDict_touch {d : List (String × Value)} (h : WFDict d) (key : String) :
    WFDict (dictModify key id (.dict []) d) := by
  refine ⟨nodup_keysOf_dictModify h.1 _ _ _, ?_⟩
  intro kv hkv
  rcases mem_dictModify hkv with h' | ⟨_, h2⟩
  · exact h.2 _ h'
  · rcases h2 with h2 | ⟨w, hw, h2⟩
    · exact ⟨[], h2.trans rfl, WFBag_nil⟩
    · obtain ⟨bag, hbag, hwbag⟩ := h.2 _ hw
      exact ⟨bag, h2.trans hbag, hwbag⟩

theorem WFRels_relsAddProp {rels : Rels} (h : WFRels rels) (table key prop val : String) :
    WFRels (relsAddProp table key prop val rels) := by
  unfold relsAddProp
  refine ⟨nodup_keysOf_dictModify h.1 _ _ _, ?_⟩
  intro td htd
  rcases mem_dictModify htd with h' | ⟨_, h2⟩
  · exact h.2 _ h'
  · rcases h2 with h2 | ⟨w, hw, h2⟩
    · rw [h2]
      exact WFDict_addProp WFDict_nil key prop val
    · rw [h2]
      exact WFDict_addProp (h.2 _ hw) key prop val

theorem WFRels_relsTouch {rels : Rels} (h : WFRels rels) (table key : String) :
    WFRels (relsTouch table key rels) := by
  unfold relsTouch
  refine ⟨nodup_keysOf_dictModify h.1 _ _ _, ?_⟩
  intro td htd
  rcases mem_dictModify htd with h' | ⟨_, h2⟩
  · exact h.2 _ h'
  · rcases h2 with h2 | ⟨w, hw, h2⟩
    · rw [h2]
      exact WFDict_touch WFDict_nil key
    · rw [h2]
      exact WFDict_touch (h.2 _ hw) key

theorem WFRels_gatherPropStep {r : Rels} (h : WFRels r) (table key : String)
    (pv : String × Option String) : WFRels (gatherPropStep table key r pv) := by
  unfold gatherPropStep
  by_cases hig : ignored_properties.contains pv.1 = true
  · simp only [hig, Bool.not_true, Bool.false_eq_true, if_false]
    exact h
  · rw [Bool.not_eq_true] at hig
    simp only [hig, Bool.not_false, if_true]
    cases pv.2 with
    | some val => exact WFRels_relsAddProp h _ _ _ _
    | none => exact h

theorem WFRels_gatherColStep {rels : Rels} (h : WFRels rels) (parts : List String)
    (col : ColRow) : WFRels (gatherColStep parts rels col) := by
  unfold gatherColStep
  by_cases hp : parts.contains (col.table_schema ++ "." ++ col.table_name) = true
  · rw [if_pos hp]
    exact h
  · rw [if_neg hp]
    exact @foldl_preserve Rels (String × Option String) WFRels _
      (fun r pv hr => WFRels_gatherPropStep hr _ _ pv) col.items rels h

theorem WFRels_gatherCols (parts : List String) (cols : List ColRow) :
    WFRels (gatherCols parts cols) := by
  unfold gatherCols
  exact @foldl_preserve Rels ColRow WFRels _
    (fun r col hr => WFRels_gatherColStep hr parts col) cols [] WFRels_nil

theorem WFRels_gqdRowStep {t : Rels} (h : WFRels t) (topic : String) (row : QueryRow) :
    WFRels (gqdRowStep topic t row) := by
  unfold gqdRowStep
  exact @foldl_preserve Rels (String × String) WFRels _
    (fun r pv hr => WFRels_relsAddProp hr _ _ _ _) row.props _ (WFRels_relsTouch h _ _)

theorem WFRels_gather_query_data {target : Rels} (h : WFRels target) (topic : String)
    (rows : List QueryRow) : WFRels (gather_query_data topic target rows) := by
  unfold gather_query_data
  exact @foldl_preserve Rels QueryRow WFRels _
    (fun r row hr => WFRels_gqdRowStep hr topic row) rows target h

theorem WFInfo_gather_data (dsn : String) (parts : List String) (cols : List ColRow)
    (indexRows constraintRows : List QueryRow) :
    WFInfo (gather_data dsn parts cols indexRows constraintRows) := by
  unfold gather_data WFInfo
  exact WFRels_gather_query_data
    (WFRels_gather_query_data (WFRels_gatherCols parts cols) _ _) _ _

/-! ### Null-dropping and partition exclusion in the normalizer -/

theorem gatherPropStep_none (table key : String) (r : Rels) (p : String) :
    gatherPropStep table key r (p, none) = r := by
  unfold gatherPropStep
  by_cases h : ignored_properties.contains p = true <;> simp [h]

theorem gatherColStep_null_dropped (parts : List String) (r : Rels)
    (s t c : String) (props₁ props₂ : List (String × Option String)) (p : String) :
    gatherColStep parts r ⟨s, t, c, props₁ ++ (p, none) :: props₂⟩ =
      gatherColStep parts r ⟨s, t, c, props₁ ++ props₂⟩ := by
  unfold gatherColStep
  by_cases hp : parts.contains (s ++ "." ++ t) = true
  · rw [if_pos hp, if_pos hp]
  · rw [if_neg hp, if_neg hp]
    show List.foldl _ _ (("table_schema", some s) :: ("table_name", some t) ::
        ("column_name", some c) :: (props₁ ++ (p, none) :: props₂)) =
      List.foldl _ _ (("table_schema", some s) :: ("table_name", some t) ::
        ("column_name", some c) :: (props₁ ++ props₂))
    rw [List.foldl_cons, List.foldl_cons, List.foldl_cons,
      List.foldl_cons, List.foldl_cons, List.foldl_cons,
      List.foldl_append, List.foldl_append, List.foldl_cons, gatherPropStep_none]

theorem gatherCols_null_dropped (parts : List String) (pre post : List ColRow)
    (s t c : String) (props₁ props₂ : List (String × Option String)) (p : String) :
    gatherCols parts (pre ++ ⟨s, t, c, props₁ ++ (p, none) :: props₂⟩ :: post) =
      gatherCols parts (pre ++ ⟨s, t, c, props₁ ++ props₂⟩ :: post) := by
  unfold gatherCols
  rw [List.foldl_append, List.foldl_append, List.foldl_cons, List.foldl_cons,
    gatherColStep_null_dropped]

theorem dictGet_dictModify_ne {α : Type} {key rel : String} (hne : key ≠ rel)
    (f : α → α) (dflt : α) (d : List (String × α)) :
    dictGet (dictModify key f dflt d) rel = dictGet d rel := by
  induction d with
  | nil => simp [dictModify, dictGet, hne]
  | cons kv rest ih =>
    obtain ⟨k, w⟩ := kv
    by_cases hk : k = key
    · subst hk
      rw [show dictModify k f dflt ((k, w) :: rest) = (k, f w) :: rest from
        by simp [dictModify]]
      simp [dictGet, hne]
    · rw [show dictModify key f dflt ((k, w) :: rest) = (k, w) :: dictModify key f dflt rest from
        by simp [dictModify, hk]]
      by_cases hkr : k = rel
      · simp [dictGet, hkr]
      · simp [dictGet, hkr, ih]

theorem dictGet_relsAddProp_ne {table key prop val : String} {rel : String}
    (hne : table ≠ rel) (rels : Rels) :
    dictGet (relsAddProp table key prop val rels) rel = dictGet rels rel :=
  dictGet_dictModify_ne hne _ _ rels

theorem dictGet_relsTouch_ne {table key : String} {rel : String} (hne : table ≠ rel)
    (rels : Rels) : dictGet (relsTouch table key rels) rel = dictGet rels rel :=
  dictGet_dictModify_ne hne _ _ rels

theorem gatherCols_excluded {parts : List String} {rel : String} (hrel : rel ∈ parts)
    (cols : List ColRow) : dictGet (gatherCols parts cols) rel = none := by
  unfold gatherCols
  refine @foldl_preserve Rels ColRow (fun r => dictGet r rel = none) _ ?_ cols [] rfl
  intro r col hr
  unfold gatherColStep
  by_cases hp : parts.contains (col.table_schema ++ "." ++ col.table_name) = true
  · rw [if_pos hp]
    exact hr
  · rw [if_neg hp]
    have hne : col.table_schema ++ "." ++ col.table_name ≠ rel := by
      rintro rfl
      exact hp (by simpa using hrel)
    refine @foldl_preserve Rels (String × Option String) (fun r => dictGet r rel = none) _
      ?_ col.items r hr
    intro r' pv hr'
    unfold gatherPropStep
    by_cases hig : ignored_properties.contains pv.1 = true
    · simp only [hig, Bool.not_true, Bool.false_eq_true, if_false]
      exact hr'
    · rw [Bool.not_eq_true] at hig
      simp only [hig, Bool.not_false, if_true]
      cases pv.2 with
      | some val => rw [dictGet_relsAddProp_ne hne]; exact hr'
      | none => exact hr'

theorem gather_query_data_excluded {parts : List String} {rel : String} (hrel : rel ∈ parts)
    {target : Rels} (h : dictGet target rel = none) (topic : String) {rows : List QueryRow}
    (hrows : ∀ row ∈ rows, row.table ∉ parts) :
    dictGet (gather_query_data topic target rows) rel = none := by
  unfold gather_query_data
  refine @foldl_preserve_mem Rels QueryRow (fun r => dictGet r rel = none) _ rows ?_ target h
  intro row hrow r hr
  have hne : row.table ≠ rel := by
    rintro rfl
    exact hrows row hrow hrel
  unfold gqdRowStep
  refine @foldl_preserve Rels (String × String) (fun r => dictGet r rel = none) _ ?_
    row.props _ (show dictGet _ rel = none from by rw [dictGet_relsTouch_ne hne]; exact hr)
  intro r' pv hr'
  show dictGet _ rel = none
  rw [dictGet_relsAddProp_ne hne]
  exact hr'

theorem gather_data_excluded {parts : List String} {rel : String} (hrel : rel ∈ parts)
    (dsn : String) (cols : List ColRow) {indexRows constraintRows : List QueryRow}
    (hrows : ∀ row ∈ indexRows ++ constraintRows, row.table ∉ parts) :
    dictGet (gather_data dsn parts cols indexRows constraintRows).rels rel = none := by
  unfold gather_data
  refine gather_query_data_excluded hrel ?_ _ ?_
  · refine gather_query_data_excluded hrel ?_ _ ?_
    · exact gatherCols_excluded hrel cols
    · exact fun row hrow => hrows row (List.mem_append_left _ hrow)
  · exact fun row hrow => hrows row (List.mem_append_right _ hrow)

/-! ### An excluded relation never influences the diff -/


theorem keysOf_filter {α : Type} (q : String → Bool) (d : List (String × α)) :
    keysOf (d.filter (fun kv => q kv.1)) = (keysOf d).filter q := by
  induction d with
  | nil => rfl
  | cons kv rest ih =>
    obtain ⟨k, v⟩ := kv
    rw [List.filter_cons, keysOf_cons, List.filter_cons]
    by_cases hq : q k = true
    · rw [if_pos hq, if_pos hq, keysOf_cons, ih]
    · rw [if_neg hq, if_neg hq, ih]

theorem dictGet_filter_ne {α : Type} {rel rel' : String} (h : rel' ≠ rel)
    (d : List (String × α)) :
    dictGet (d.filter (fun kv => decide (kv.1 ≠ rel))) rel' = dictGet d rel' := by
  induction d with
  | nil => rfl
  | cons kv rest ih =>
    obtain ⟨k, v⟩ := kv
    rw [List.filter_cons]
    by_cases hk : k = rel
    · subst hk
      rw [if_neg (by simp)]
      rw [show dictGet ((k, v) :: rest) rel' = dictGet rest rel' from
        by simp [dictGet, Ne.symm h]]
      exact ih
    · rw [if_pos (by simp [hk])]
      simp only [dictGet, ih]

theorem dedupFirst_filter {p : String → Bool} :
    ∀ {seen₁ seen₂ : List String}, (∀ x, p x = true → (x ∈ seen₁ ↔ x ∈ seen₂)) →
      ∀ l, (dedupFirst seen₁ l).filter p = dedupFirst seen₂ (l.filter p) := by
  intro seen₁ seen₂ hseen l
  induction l generalizing seen₁ seen₂ with
  | nil => simp [dedupFirst]
  | cons k ks ih =>
    by_cases hpk : p k = true
    · by_cases hk : k ∈ seen₁
      · have hk₂ : k ∈ seen₂ := (hseen k hpk).mp hk
        rw [show dedupFirst seen₁ (k :: ks) = dedupFirst seen₁ ks from by simp [dedupFirst, hk],
          show (k :: ks).filter p = k :: ks.filter p from by simp [List.filter_cons, hpk],
          show dedupFirst seen₂ (k :: ks.filter p) = dedupFirst seen₂ (ks.filter p) from
            by simp [dedupFirst, hk₂]]
        exact ih hseen
      · have hk₂ : k ∉ seen₂ := fun hh => hk ((hseen k hpk).mpr hh)
        rw [show dedupFirst seen₁ (k :: ks) = k :: dedupFirst (k :: seen₁) ks from
            by simp [dedupFirst, hk],
          show (k :: ks).filter p = k :: ks.filter p from by simp [List.filter_cons, hpk],
          show dedupFirst seen₂ (k :: ks.filter p) = k :: dedupFirst (k :: seen₂) (ks.filter p)
            from by simp [dedupFirst, hk₂],
          List.filter_cons, if_pos hpk]
        congr 1
        refine ih (fun x hpx => ?_)
        rw [List.mem_cons, List.mem_cons, hseen x hpx]
    · by_cases hk : k ∈ seen₁
      · rw [show dedupFirst seen₁ (k :: ks) = dedupFirst seen₁ ks from by simp [dedupFirst, hk],
          show (k :: ks).filter p = ks.filter p from by simp [List.filter_cons, hpk]]
        exact ih hseen
      · rw [show dedupFirst seen₁ (k :: ks) = k :: dedupFirst (k :: seen₁) ks from
            by simp [dedupFirst, hk],
          show (k :: ks).filter p = ks.filter p from by simp [List.filter_cons, hpk],
          List.filter_cons, if_neg (by simp [hpk])]
        refine ih (fun x hpx => ?_)
        rw [List.mem_cons]
        constructor
        · rintro (rfl | h)
          · exact absurd hpx hpk
          · exact (hseen x hpx).mp h
        · intro h
          exact Or.inr ((hseen x hpx).mpr h)

theorem relBlock_getEq {r₁ r₂ s₁ s₂ : Rels} {rel : String}
    (ha : dictGet r₁ rel = dictGet r₂ rel) (hb : dictGet s₁ rel = dictGet s₂ rel) :
    relBlock r₁ s₁ rel = relBlock r₂ s₂ rel := by
  unfold relBlock
  rw [ha, hb]

theorem mem_consideredRels_true {a b : Info} {schemas : List String} {r' : String}
    (h : r' ∈ consideredRels a b schemas true) :
    r' ∉ a.partitions ∧ r' ∉ b.partitions := by
  simp only [consideredRels, if_true] at h
  rw [mem_pySorted] at h
  have h' : r' ∈ (dedupFirst [] (keysOf a.rels ++ keysOf b.rels)).filter
      (fun n => !(a.partitions.contains n) && !(b.partitions.contains n)) := by
    by_cases hse : schemas.isEmpty = true
    · rw [if_pos hse] at h
      exact h
    · rw [if_neg hse] at h
      exact (List.mem_filter.mp h).1
  obtain ⟨_, hpred⟩ := List.mem_filter.mp h'
  simp only [Bool.and_eq_true, Bool.not_eq_true'] at hpred
  refine ⟨fun hmem => ?_, fun hmem => ?_⟩
  · have hc : a.partitions.contains r' = true := by simpa using hmem
    rw [hc] at hpred
    exact absurd hpred.1 (by simp)
  · have hc : b.partitions.contains r' = true := by simpa using hmem
    rw [hc] at hpred
    exact absurd hpred.2 (by simp)

theorem consideredRels_erase {a b : Info} {rel : String}
    (hrel : rel ∈ a.partitions ∨ rel ∈ b.partitions) (schemas : List String) :
    consideredRels (eraseRel rel a) (eraseRel rel b) schemas true =
      consideredRels a b schemas true := by
  have hkeysA : keysOf (a.rels.filter (fun td => decide (td.1 ≠ rel))) =
      (keysOf a.rels).filter (fun x => decide (x ≠ rel)) :=
    keysOf_filter (fun x => decide (x ≠ rel)) a.rels
  have hkeysB : keysOf (b.rels.filter (fun td => decide (td.1 ≠ rel))) =
      (keysOf b.rels).filter (fun x => decide (x ≠ rel)) :=
    keysOf_filter (fun x => decide (x ≠ rel)) b.rels
  have hfilters : (dedupFirst [] (keysOf (a.rels.filter (fun td => decide (td.1 ≠ rel))) ++
        keysOf (b.rels.filter (fun td => decide (td.1 ≠ rel))))).filter
        (fun n => !(a.partitions.contains n) && !(b.partitions.contains n)) =
      (dedupFirst [] (keysOf a.rels ++ keysOf b.rels)).filter
        (fun n => !(a.partitions.contains n) && !(b.partitions.contains n)) := by
    rw [hkeysA, hkeysB, ← List.filter_append,
      show dedupFirst [] ((keysOf a.rels ++ keysOf b.rels).filter (fun x => decide (x ≠ rel))) =
          (dedupFirst [] (keysOf a.rels ++ keysOf b.rels)).filter (fun x => decide (x ≠ rel))
        from (dedupFirst_filter (fun x _ => Iff.rfl) _).symm,
      List.filter_filter]
    apply List.filter_congr
    intro x _
    cases hp : (!(a.partitions.contains x) && !(b.partitions.contains x)) with
    | false => simp [hp]
    | true =>
      have hq : decide (x ≠ rel) = true := by
        refine decide_eq_true ?_
        rintro rfl
        simp only [Bool.and_eq_true, Bool.not_eq_true'] at hp
        rcases hrel with hrel | hrel
        · rw [show a.partitions.contains x = true from by simpa using hrel] at hp
          exact absurd hp.1 (by simp)
        · rw [show b.partitions.contains x = true from by simpa using hrel] at hp
          exact absurd hp.2 (by simp)
      rw [hq]
      rfl
  simp only [consideredRels, eraseRel, if_true]
  by_cases hse : schemas.isEmpty = true
  · rw [if_pos hse, if_pos hse, hfilters]
  · rw [if_neg hse, if_neg hse, hfilters]

theorem compare_schema_erase {a b : Info} {rel : String}
    (hrel : rel ∈ a.partitions ∨ rel ∈ b.partitions) (schemas : List String) :
    compare_schema (eraseRel rel a) (eraseRel rel b) schemas true =
      compare_schema a b schemas true := by
  unfold compare_schema
  rw [consideredRels_erase hrel schemas]
  have hmap : List.map (relBlock (eraseRel rel a).rels (eraseRel rel b).rels)
      (consideredRels a b schemas true) =
      List.map (relBlock a.rels b.rels) (consideredRels a b schemas true) := by
    apply List.map_congr_left
    intro r' hr'
    have hne : r' ≠ rel := by
      obtain ⟨h1, h2⟩ := mem_consideredRels_true hr'
      rcases hrel with hrel | hrel
      · rintro rfl
        exact h1 hrel
      · rintro rfl
        exact h2 hrel
    exact relBlock_getEq (dictGet_filter_ne hne _) (dictGet_filter_ne hne _)
  rw [hmap]
  rfl

/-! ### The order in which the diff visits keys -/


theorem cdItems_eq {a b : List (String × Value)}
    (ha : (keysOf a).Nodup) (hb : (keysOf b).Nodup) :
    cdItems a b = pySorted (keysOf a) ++
      (pySorted (keysOf b)).filter (fun k => decide (k ∉ keysOf a)) := by
  unfold cdItems
  rw [dedupFirst_append]
  congr 1
  · rw [dedupFirst_eq_filter (pySorted_nodup ha) []]
    apply List.filter_eq_self.mpr
    intro x _
    simp
  · rw [dedupFirst_eq_filter (pySorted_nodup hb)]
    apply List.filter_congr
    intro x hx
    rw [decide_eq_decide]
    constructor
    · intro h hmem
      exact h (List.mem_append_left _ (mem_pySorted.mpr hmem))
    · intro h hmem
      rcases List.mem_append.mp hmem with hmem | hmem
      · exact h (mem_pySorted.mp hmem)
      · cases hmem

/-! ### Decidability of well-formedness, and reflexivity of the equivalences -/


theorem VEqv_refl_of_WF {v : Value} (h : (∃ s, v = Value.scalar s) ∨
    ∃ bag, v = Value.dict bag ∧ WFBag bag) : VEqv v v := by
  rcases h with ⟨s, rfl⟩ | ⟨bag, rfl, hw⟩
  · show s = s
    rfl
  · exact ⟨hw, hw, fun _ => rfl⟩

theorem DictEqv_refl {d : List (String × Value)} (h : WFDict d) : DictEqv d d := by
  refine ⟨h, h, fun k => ?_⟩
  cases hg : dictGet d k with
  | none => trivial
  | some v =>
    obtain ⟨bag, rfl, hw⟩ := WFDict_get h hg
    exact ⟨hw, hw, fun _ => rfl⟩

theorem RelsEqv_refl {r : Rels} (h : WFRels r) : RelsEqv r r := by
  refine ⟨h, h, fun t => ?_⟩
  cases hg : dictGet r t with
  | none => trivial
  | some d => exact DictEqv_refl (h.2 _ (mem_of_dictGet_eq_some hg))

theorem InfoEqv_refl {i : Info} (h : WFInfo i) : InfoEqv i i :=
  ⟨rfl, rfl, RelsEqv_refl h⟩

theorem compare_schema_same_rels {a b : Info} (h : a.rels = b.rels) (hw : WFRels a.rels)
    (schemas : List String) (ign : Bool) :
    compare_schema a b schemas ign = ["--- " ++ a.dsn, "+++ " ++ b.dsn] := by
  unfold compare_schema
  suffices hs : (List.map (relBlock a.rels b.rels) (consideredRels a b schemas ign)).flatten
      = [] by rw [hs]
  rw [List.flatten_eq_nil_iff]
  intro l hl
  obtain ⟨rel, _, rfl⟩ := List.mem_map.mp hl
  rw [← h]
  exact relBlock_refl hw rel

theorem relBlock_oneSided_a {aR bR : Rels} {rel : String} {da : List (String × Value)}
    (hga : dictGet aR rel = some da) (hgb : dictGet bR rel = none) :
    relBlock aR bR rel = ["@@ Relation " ++ rel, "+Relation " ++ pyRepr rel] := by
  simp [relBlock, hga, hgb, pyEqOptDict, pyEqOpt]

/-- The two insertion orders of the sample bag denote the same snapshot. -/
theorem infoPQ_eqv : InfoEqv infoPQ infoQP := by
  refine ⟨rfl, rfl, by decide, by decide, ?_⟩
  intro t
  show OptDictEqv (dictGet [("t", [("c", Value.dict bagPQ)])] t)
    (dictGet [("t", [("c", Value.dict bagQP)])] t)
  unfold dictGet
  by_cases h : "t" = t
  · rw [if_pos h, if_pos h]
    refine ⟨by decide, by decide, ?_⟩
    intro k
    show OptVEqv (dictGet [("c", Value.dict bagPQ)] k) (dictGet [("c", Value.dict bagQP)] k)
    unfold dictGet
    by_cases hk : "c" = k
    · rw [if_pos hk, if_pos hk]
      refine ⟨by decide, by decide, ?_⟩
      intro p
      show dictGet bagPQ p = dictGet bagQP p
      by_cases h1 : "p" = p <;> by_cases h2 : "q" = p <;>
        simp [bagPQ, bagQP, dictGet, h1, h2]
      exact absurd (h1.trans h2.symm) (by decide)
    · rw [if_neg hk, if_neg hk]
      exact trivial
  · rw [if_neg h, if_neg h]
    exact trivial

/-! ### The claims -/

/-- C1 counterexample: snapshot A has relation `public.users` carrying column
`email`, snapshot B lacks the relation entirely, yet the diff yields exactly
one relation-level record reading `+Relation \x27public.users\x27` — no record
for the column, and no record starting with `-` at all. -/
theorem C1_missing_relation_counterexample :
    compare_schema infoUsers infoEmpty [] false =
      ["--- dsnA", "+++ dsnB", "@@ Relation public.users",
        "+Relation \x27public.users\x27"] ∧
    changeRecords infoUsers infoEmpty [] false = ["+Relation \x27public.users\x27"] ∧
    (changeRecords infoUsers infoEmpty [] false).filter (fun l => pyStartswith l "-") = [] :=
  ⟨rfl, rfl, rfl⟩

/-- C1: corrected form. Inside a shared dict level the code does emit one
`-`-signed Removed record for every key present only in A; but a relation
present only in A is reported as a single relation-level record — and that
record reads `+Relation` (lines 152-153), with no per-column records. -/
theorem C1_one_sided_records :
    (∀ (a b : List (String × Value)) (k : String) (av : Value) (path : List String),
      dictGet a k = some av → dictGet b k = none →
        oneSidedLine "-" (String.intercalate " " (path ++ [k])) av ∈ compare_dicts a b path) ∧
    (∀ (aR bR : Rels) (rel : String) (da : List (String × Value)),
      dictGet aR rel = some da → dictGet bR rel = none →
        relBlock aR bR rel = ["@@ Relation " ++ rel, "+Relation " ++ pyRepr rel]) := by
  constructor
  · intro a b k av path hga hgb
    exact cdGo_removed_mem (mem_cdItems_left (mem_keysOf_iff_get.mpr ⟨av, hga⟩)) hga hgb path
  · intro aR bR rel da hga hgb
    exact relBlock_oneSided_a hga hgb

theorem C1_one_sided_records_witness :
    oneSidedLine "-" (String.intercalate " " ([] ++ ["k"])) (Value.scalar "1") ∈
      compare_dicts [("k", Value.scalar "1")] [] [] ∧
    relBlock [("t", [])] [] "t" = ["@@ Relation " ++ "t", "+Relation " ++ pyRepr "t"] :=
  ⟨C1_one_sided_records.1 [("k", Value.scalar "1")] [] "k" (Value.scalar "1") [] (by decide) rfl,
   C1_one_sided_records.2 [("t", [])] [] "t" [] (by decide) rfl⟩

/-- C2: the diff is a pure function of the two Snapshots: any two
representations of the same snapshot data (equal up to dict insertion order,
the only thing that can vary between runs over an unchanged catalog) produce
the identical ordered line sequence. -/
theorem C2_diff_deterministic (a₁ a₂ b₁ b₂ : Info) (schemas : List String) (ign : Bool)
    (ha : InfoEqv a₁ a₂) (hb : InfoEqv b₁ b₂) :
    compare_schema a₁ b₁ schemas ign = compare_schema a₂ b₂ schemas ign :=
  compare_schema_congr ha hb schemas ign

theorem C2_diff_deterministic_witness :
    compare_schema infoPQ infoEmpty [] false = compare_schema infoQP infoEmpty [] false :=
  C2_diff_deterministic infoPQ infoQP infoEmpty infoEmpty [] false infoPQ_eqv
    (InfoEqv_refl (by decide))

/-- C3 counterexample: two properties of one shared column differ, so four
record lines are rendered but the count is 1 — the count is the number of
`@@` relation markers, not the number of Change Records. -/
theorem C3_count_counterexample :
    compare_count infoProps1 infoProps2 [] false = 1 ∧
    (changeRecords infoProps1 infoProps2 [] false).length = 4 ∧
    compare_count infoProps1 infoProps2 [] false ≠
      (changeRecords infoProps1 infoProps2 [] false).length := by
  refine ⟨?_, ?_, ?_⟩ <;>
    simp +decide [compare_count, changeRecords, compare_schema, consideredRels, relBlock,
      compare_dicts, cdGo, cdItems, pySorted, keysOf, dedupFirst, pyEqOpt, pyEqOptDict,
      dictGet, pyEq, pyEqEntries, pyStr, pyStartswith, oneSidedLine,
      List.insertionSort, List.orderedInsert, infoProps1, infoProps2]

/-- C3: corrected form. The returned count is the number of relations whose
two sides differ (one `@@` marker each), not the number of Change Records;
the exit status is 0 exactly when the count is 0, which in turn holds exactly
when no Change Record is rendered. -/
theorem C3_count_relations_and_exit (a b : Info) (schemas : List String) (ign : Bool)
    (hwa : WFInfo a) (hwb : WFInfo b) :
    compare_count a b schemas ign = (differingRels a b schemas ign).length ∧
    (main_result (compare_count a b schemas ign) = 0 ↔ compare_count a b schemas ign = 0) ∧
    (compare_count a b schemas ign = 0 ↔ changeRecords a b schemas ign = []) := by
  refine ⟨compare_count_eq a b schemas ign, ?_, count_zero_iff_records_nil hwa hwb schemas ign⟩
  unfold main_result
  by_cases h : compare_count a b schemas ign = 0 <;> simp [h]

theorem C3_count_relations_and_exit_witness :
    compare_count infoProps1 infoProps2 [] false =
      (differingRels infoProps1 infoProps2 [] false).length ∧
    (main_result (compare_count infoProps1 infoProps2 [] false) = 0 ↔
      compare_count infoProps1 infoProps2 [] false = 0) ∧
    (compare_count infoProps1 infoProps2 [] false = 0 ↔
      changeRecords infoProps1 infoProps2 [] false = []) :=
  C3_count_relations_and_exit infoProps1 infoProps2 [] false (by decide) (by decide)

/-- C4 counterexample: a shared key with two differing scalars yields the two
lines `-k 1` and `+k 2`, not a single record, and not one in the grammar
`<topic> <key> is <value_a> in <A>, <value_b> in <B>`. -/
theorem C4_changed_counterexample :
    compare_dicts [("k", Value.scalar "1")] [("k", Value.scalar "2")] [] = ["-k 1", "+k 2"] ∧
    (compare_dicts [("k", Value.scalar "1")] [("k", Value.scalar "2")] []).length ≠ 1 ∧
    "-k 1" ≠ specChangedLine "k" "1" "dsnA" "2" "dsnB" := by
  refine ⟨?_, ?_, by decide⟩ <;>
    simp +decide [compare_dicts, cdGo, cdItems, pySorted, keysOf, dedupFirst, pyEqOpt,
      dictGet, pyEq, pyStr, List.insertionSort, List.orderedInsert]

/-- C4: corrected form. A key present on both sides with differing values, at
least one not a mapping, is reported as an adjacent pair of records: a
`-`-signed line with the A value and a `+`-signed line with the B value, both
values rendered verbatim via str(). -/
theorem C4_changed_pair (a b : List (String × Value)) (k : String) (av bv : Value)
    (path : List String) (hga : dictGet a k = some av) (hgb : dictGet b k = some bv)
    (hne : pyEq av bv = false)
    (hmix : ∀ d1 d2 : List (String × Value), av = Value.dict d1 → bv = Value.dict d2 → False) :
    ∃ pre post, compare_dicts a b path =
      pre ++ ("-" ++ String.intercalate " " (path ++ [k]) ++ " " ++ pyStr av) ::
        ("+" ++ String.intercalate " " (path ++ [k]) ++ " " ++ pyStr bv) :: post :=
  cdGo_changed_mem (mem_cdItems_left (mem_keysOf_iff_get.mpr ⟨av, hga⟩)) hga hgb hne hmix path

theorem C4_changed_pair_witness :
    ∃ pre post, compare_dicts [("k", Value.scalar "1")] [("k", Value.scalar "2")] [] =
      pre ++ ("-" ++ String.intercalate " " ([] ++ ["k"]) ++ " " ++ pyStr (Value.scalar "1")) ::
        ("+" ++ String.intercalate " " ([] ++ ["k"]) ++ " " ++ pyStr (Value.scalar "2")) :: post :=
  C4_changed_pair [("k", Value.scalar "1")] [("k", Value.scalar "2")] "k"
    (Value.scalar "1") (Value.scalar "2") [] (by decide) (by decide) (by decide)
    (fun d1 d2 h1 h2 => nomatch h1)

/-- C5 counterexample: with A = {b} and B = {a} the diff visits `b` before
`a` — the visit order is sorted(A-keys) followed by the unseen sorted
B-keys, not the sorted union — and the output shows it. -/
theorem C5_visit_order_counterexample :
    cdItems [("b", Value.scalar "1")] [("a", Value.scalar "2")] = ["b", "a"] ∧
    sortedUnionKeys [("b", Value.scalar "1")] [("a", Value.scalar "2")] = ["a", "b"] ∧
    cdItems [("b", Value.scalar "1")] [("a", Value.scalar "2")] ≠
      sortedUnionKeys [("b", Value.scalar "1")] [("a", Value.scalar "2")] ∧
    compare_dicts [("b", Value.scalar "1")] [("a", Value.scalar "2")] [] = ["-b", "+a"] := by
  refine ⟨by decide, ?_, ?_, ?_⟩ <;>
    simp +decide [compare_dicts, cdGo, cdItems, sortedUnionKeys, pySorted, keysOf,
      dedupFirst, pyEqOpt, dictGet, pyEq, pyStr, oneSidedLine,
      List.insertionSort, List.orderedInsert]

/-- C5: corrected form. At every nesting level the visit order is the sorted
A-side keys followed by those sorted B-side keys not present in A (two sorted
runs, not one sorted union); that order — and hence the record sequence — is
nevertheless independent of the rows\x27 arrival order, depending only on the
key sets up to permutation. -/
theorem C5_visit_order :
    (∀ (a b : List (String × Value)), (keysOf a).Nodup → (keysOf b).Nodup →
      cdItems a b = pySorted (keysOf a) ++
        (pySorted (keysOf b)).filter (fun k => decide (k ∉ keysOf a))) ∧
    (∀ (a₁ a₂ b₁ b₂ : List (String × Value)), (keysOf a₁).Perm (keysOf a₂) →
      (keysOf b₁).Perm (keysOf b₂) → cdItems a₁ b₁ = cdItems a₂ b₂) :=
  ⟨fun _ _ ha hb => cdItems_eq ha hb, fun _ _ _ _ ha hb => cdItems_congr ha hb⟩

theorem C5_visit_order_witness :
    cdItems [("b", Value.scalar "1")] [("a", Value.scalar "2")] =
      pySorted (keysOf [("b", Value.scalar "1")]) ++
        (pySorted (keysOf [("a", Value.scalar "2")])).filter
          (fun k => decide (k ∉ keysOf [("b", Value.scalar "1")])) ∧
    cdItems [("x", Value.scalar "1"), ("y", Value.scalar "2")] [] =
      cdItems [("y", Value.scalar "2"), ("x", Value.scalar "1")] [] :=
  ⟨C5_visit_order.1 _ _ (by decide) (by decide),
   C5_visit_order.2 _ _ _ _ (by decide) (by decide)⟩

/-- C6: the relation-level label does not swap with the inputs: a relation
present only in A is reported as `+Relation` by diff(A, B) and again as
`+Relation` by diff(B, A) — the two one-sided branches of lines 149-153 both
yield `+Relation {!r}`, so no `-Relation` record is ever produced and the
antisymmetry the spec states fails at relation level. -/
theorem C6_label_not_swapped :
    compare_schema infoUsers infoEmpty [] false =
      ["--- dsnA", "+++ dsnB", "@@ Relation public.users",
        "+Relation \x27public.users\x27"] ∧
    compare_schema infoEmpty infoUsers [] false =
      ["--- dsnB", "+++ dsnA", "@@ Relation public.users",
        "+Relation \x27public.users\x27"] :=
  ⟨rfl, rfl⟩

/-- C7: diffing a snapshot against itself yields only the two dsn header
lines: no `@@` marker and no Added, Removed or Changed record. -/
theorem C7_diff_reflexive (i : Info) (schemas : List String) (ign : Bool) (h : WFInfo i) :
    compare_schema i i schemas ign = ["--- " ++ i.dsn, "+++ " ++ i.dsn] :=
  compare_schema_refl h schemas ign

theorem C7_diff_reflexive_witness :
    compare_schema infoUsers infoUsers [] false =
      ["--- " ++ infoUsers.dsn, "+++ " ++ infoUsers.dsn] :=
  C7_diff_reflexive infoUsers [] false (by decide)

/-- C8: a property arriving as NULL on one side and absent on the other is
treated as equal: the normalizer drops the NULL property, so the two sides
build identical `rels` and the full diff of the two runs is just the two
header lines — no Change Record is emitted for the property. -/
theorem C8_null_dropping (dsn₁ dsn₂ : String) (parts : List String) (pre post : List ColRow)
    (s t c p : String) (props₁ props₂ : List (String × Option String))
    (indexRows constraintRows : List QueryRow) (schemas : List String) (ign : Bool) :
    gather_data dsn₁ parts (pre ++ ⟨s, t, c, props₁ ++ (p, none) :: props₂⟩ :: post)
        indexRows constraintRows =
      gather_data dsn₁ parts (pre ++ ⟨s, t, c, props₁ ++ props₂⟩ :: post)
        indexRows constraintRows ∧
    compare_schema
      (gather_data dsn₁ parts (pre ++ ⟨s, t, c, props₁ ++ (p, none) :: props₂⟩ :: post)
        indexRows constraintRows)
      (gather_data dsn₂ parts (pre ++ ⟨s, t, c, props₁ ++ props₂⟩ :: post)
        indexRows constraintRows)
      schemas ign = ["--- " ++ dsn₁, "+++ " ++ dsn₂] := by
  have h1 : gather_data dsn₁ parts (pre ++ ⟨s, t, c, props₁ ++ (p, none) :: props₂⟩ :: post)
      indexRows constraintRows =
      gather_data dsn₁ parts (pre ++ ⟨s, t, c, props₁ ++ props₂⟩ :: post)
        indexRows constraintRows := by
    unfold gather_data
    rw [gatherCols_null_dropped]
  refine ⟨h1, ?_⟩
  have hrels : (gather_data dsn₁ parts (pre ++ ⟨s, t, c, props₁ ++ (p, none) :: props₂⟩ :: post)
      indexRows constraintRows).rels =
      (gather_data dsn₂ parts (pre ++ ⟨s, t, c, props₁ ++ props₂⟩ :: post)
        indexRows constraintRows).rels := by
    rw [h1]
    rfl
  exact compare_schema_same_rels hrels
    (WFInfo_gather_data dsn₁ parts (pre ++ ⟨s, t, c, props₁ ++ (p, none) :: props₂⟩ :: post)
      indexRows constraintRows) schemas ign

/-- C9: a relation listed in the Exclusion Set never reaches the output: a
built snapshot contains no entry for a partition-listed relation (provided,
as the queries guarantee, that the index and constraint rows exclude
partition tables too), and with partition ignoring enabled, deleting a
partition-listed relation from both sides leaves the diff output unchanged —
its rows contribute zero Change Records even when they differ. -/
theorem C9_partition_exclusion :
    (∀ (dsn : String) (parts : List String) (cols : List ColRow)
      (indexRows constraintRows : List QueryRow) (rel : String), rel ∈ parts →
      (∀ row ∈ indexRows ++ constraintRows, row.table ∉ parts) →
      dictGet (gather_data dsn parts cols indexRows constraintRows).rels rel = none) ∧
    (∀ (a b : Info) (rel : String) (schemas : List String),
      (rel ∈ a.partitions ∨ rel ∈ b.partitions) →
      compare_schema (eraseRel rel a) (eraseRel rel b) schemas true =
        compare_schema a b schemas true) := by
  constructor
  · intro dsn parts cols indexRows constraintRows rel h1 h2
    exact gather_data_excluded h1 dsn cols h2
  · intro a b rel schemas h
    exact compare_schema_erase h schemas

theorem C9_partition_exclusion_witness :
    dictGet (gather_data "d" ["s.t"] [⟨"s", "t", "c", [("x", some "1")]⟩] [] []).rels
      "s.t" = none ∧
    compare_schema (eraseRel "s.t" infoPartA) (eraseRel "s.t" infoPartB) [] true =
      compare_schema infoPartA infoPartB [] true :=
  ⟨C9_partition_exclusion.1 "d" ["s.t"] [⟨"s", "t", "c", [("x", some "1")]⟩] [] [] "s.t"
    (by decide) (fun row hrow => absurd hrow (List.not_mem_nil row)),
   C9_partition_exclusion.2 infoPartA infoPartB "s.t" [] (Or.inl (by decide))⟩

/-- C10: the diff mutates an input: when a key exists on only one side with a
one-entry mapping as value, the record is built by popping that entry, so the
comparison returns the input dict with the entry removed — the final state of
the A side differs from the dict that was passed in. -/
theorem C10_popitem_mutates (k p v : String) :
    compare_dicts_mut 2 [(k, Value.dict [(p, Value.scalar v)])] [] [] =
      some (["-" ++ String.intercalate " " ([] ++ [k]) ++ " " ++ p ++ " " ++
          pyStr (Value.scalar v)],
        [(k, Value.dict [])], []) ∧
    [(k, Value.dict [])] ≠ [(k, Value.dict [(p, Value.scalar v)])] := by
  constructor
  · simp [compare_dicts_mut, cdGoMut, cdItems, pySorted, keysOf, dedupFirst, pyEqOpt,
      dictGet, dictSet, pyEq, pyStr, List.insertionSort, List.orderedInsert]
  · simp
